import Mathlib

/-!
# The `p_queue` priority queue of `DPQueue.h` / `DPQueue.cpp`

A shallow embedding of the class `CS3358_FA2019_A7::p_queue`: a binary max-heap kept in a
dynamically allocated array `heap` of `capacity` slots, of which the first `used` are live.

Modelling conventions.

* `size_type` (`size_t`) is written `Nat` and `value_type` (`int`) is `Int`.  The only arithmetic the
  class performs is on indices (`2*i+1`, `2*i+2`, `(i-1)/2`) and on the capacity; an index is
  below `used`, hence below the number of allocated 16-byte items, so `2*i+2` cannot wrap.
* The dynamic array is a list of slots, one per allocated element.  A slot that has never been
  written (the elements of a fresh `new ItemType[n]`) is `none`.
* Every operation that can stop early returns `Except Fault _`.  A failed `assert` is `Fault.assertion`; an access
  past the end of the allocated array is `Fault.outOfBounds`; reading a field of a slot that was
  never written is `Fault.indeterminate`.  The sift-up loop of `push` is the one loop of the
  class that is not a counted loop; it is run with a fuel argument and `Fault.outOfFuel` marks
  exhausted fuel (`push_ok` shows that the fuel `push` passes always suffices).
* The debug printers `print_tree` and `print_array` only write to `cout` and are left out.
-/

namespace CS3358_FA2019_A7

/-- The item payload type, `typedef int value_type`. -/
abbrev value_type := Int

/-- The private `struct ItemType` of `DPQueue.h`. -/
structure ItemType where
  data : value_type
  priority : Nat
deriving DecidableEq, Repr

/-- The ways an operation can stop without returning. -/
inductive Fault where
  | assertion
  | outOfBounds
  | indeterminate
  | outOfFuel
deriving DecidableEq, Repr

/-- Equality of outcomes is decidable, so closed runs of the model can be checked by evaluation. -/
instance instDecidableEqOutcome {α : Type} [DecidableEq α] : DecidableEq (Except Fault α)
  | .ok a, .ok b => if h : a = b then isTrue (by rw [h]) else isFalse (fun h1 => h (by cases h1; rfl))
  | .error a, .error b =>
    if h : a = b then isTrue (by rw [h]) else isFalse (fun h1 => h (by cases h1; rfl))
  | .ok _, .error _ => isFalse (fun h => by cases h)
  | .error _, .ok _ => isFalse (fun h => by cases h)

/-- The array behind the pointer `heap`: one slot per allocated element. -/
abbrev Storage := List (Option ItemType)

/-- The member variables of `p_queue`. -/
structure p_queue where
  heap : Storage
  capacity : Nat
  used : Nat
deriving DecidableEq, Repr

/-- The member constant `static const size_type DEFAULT_CAPACITY = 1`. -/
def DEFAULT_CAPACITY : Nat := 1

/-- The expression `new ItemType[n]`: `n` slots, none of them written. -/
def newArray (n : Nat) : Storage := List.replicate n none

/-- The whole-struct read `a[i]` (as in `copy = heap[i]`). -/
def readItem (a : Storage) (i : Nat) : Except Fault (Option ItemType) :=
  match a[i]? with
  | some s => .ok s
  | none => .error .outOfBounds

/-- The whole-struct write `a[i] = v`. -/
def writeItem (a : Storage) (i : Nat) (v : Option ItemType) : Except Fault Storage :=
  if i < a.length then .ok (a.set i v) else .error .outOfBounds

/-- The field read `a[i].priority`. -/
def readPriority (a : Storage) (i : Nat) : Except Fault Nat :=
  match a[i]? with
  | some (some it) => .ok it.priority
  | some none => .error .indeterminate
  | none => .error .outOfBounds

/-- The field read `a[i].data`. -/
def readData (a : Storage) (i : Nat) : Except Fault value_type :=
  match a[i]? with
  | some (some it) => .ok it.data
  | some none => .error .indeterminate
  | none => .error .outOfBounds

/-- The counted loop `for (size_type i = start; i < start + n; i++) body(i)`, for a body that
leaves the bound alone. -/
def forLoop {σ : Type} (body : Nat → σ → Except Fault σ) :
    Nat → Nat → σ → Except Fault σ
  | 0, _, s => .ok s
  | n + 1, i, s =>
    match body i s with
    | .ok s1 => forLoop body n (i + 1) s1
    | .error e => .error e

/-- One pass of the copy loops `dst[i] = src[i]`. -/
def copyItem (src : Storage) (i : Nat) (dst : Storage) : Except Fault Storage :=
  match readItem src i with
  | .ok v => writeItem dst i v
  | .error e => .error e

/-- The loop `for (size_type i = 0; i < n; i++) dst[i] = src[i];` shared by the copy
constructor, `operator=` and `resize`. -/
def copyItems (src : Storage) (n : Nat) (dst : Storage) : Except Fault Storage :=
  forLoop (copyItem src) n 0 dst

namespace p_queue

/-- The constructor `p_queue::p_queue(size_type initial_capacity)`.  (A function named like its
own structure would shadow the type inside this namespace, hence `ctor`.) -/
def ctor (initial_capacity : Nat) : p_queue :=
  let capacity := if initial_capacity < 1 then DEFAULT_CAPACITY else initial_capacity
  { heap := newArray capacity, capacity := capacity, used := 0 }

/-- The copy constructor `p_queue::p_queue(const p_queue& src)`. -/
def ctor_copy (src : p_queue) : Except Fault p_queue :=
  match copyItems src.heap src.used (newArray src.capacity) with
  | .ok h => .ok { heap := h, capacity := src.capacity, used := src.used }
  | .error e => .error e

/-- The assignment `p_queue::operator=`.  The test `this != &rhs` compares object addresses,
which are passed alongside the two object states. -/
def operator_assign (this_addr rhs_addr : Nat) (self rhs : p_queue) :
    Except Fault p_queue :=
  if this_addr ≠ rhs_addr then
    match copyItems rhs.heap rhs.used (newArray rhs.capacity) with
    | .ok newHeap => .ok { heap := newHeap, capacity := rhs.capacity, used := rhs.used }
    | .error e => .error e
  else .ok self

/-- The accessor `p_queue::size`. -/
def size (q : p_queue) : Nat := q.used

/-- The accessor `p_queue::empty`. -/
def empty (q : p_queue) : Bool :=
  if q.used = 0 then true else false

/-- The accessor `p_queue::front`. -/
def front (q : p_queue) : Except Fault value_type :=
  if q.empty then .error .assertion else readData q.heap 0

/-- The helper `p_queue::resize`.  The test `used < 0` is kept as written. -/
def resize (q : p_queue) (new_capacity : Nat) :
    Except Fault p_queue :=
  let new_capacity := if new_capacity < q.used then q.used else new_capacity
  let new_capacity := if q.used < 0 then DEFAULT_CAPACITY else new_capacity
  match copyItems q.heap q.used (newArray new_capacity) with
  | .ok newHeap => .ok { heap := newHeap, capacity := new_capacity, used := q.used }
  | .error e => .error e

/-- The helper `p_queue::is_leaf`. -/
def is_leaf (q : p_queue) (i : Nat) : Except Fault Bool :=
  if i < q.used then
    if 2 * i + 1 = q.used ∧ 2 * i + 2 > q.used then .ok true else .ok false
  else .error .assertion

/-- The helper `p_queue::parent_index`. -/
def parent_index (q : p_queue) (i : Nat) : Except Fault Nat :=
  if i > 0 ∧ i < q.used then .ok ((i - 1) / 2) else .error .assertion

/-- The helper `p_queue::parent_priority`. -/
def parent_priority (q : p_queue) (i : Nat) : Except Fault Nat :=
  if i > 0 ∧ i < q.used then readPriority q.heap ((i - 1) / 2) else .error .assertion

/-- The helper `p_queue::big_child_index`. -/
def big_child_index (q : p_queue) (i : Nat) : Except Fault Nat :=
  match q.is_leaf i with
  | .error e => .error e
  | .ok true => .error .assertion
  | .ok false =>
    if 2 * i + 2 < q.used then
      match readPriority q.heap (2 * i + 1), readPriority q.heap (2 * i + 2) with
      | .ok l, .ok r => if l > r then .ok (2 * i + 1) else .ok (2 * i + 2)
      | .error e, _ => .error e
      | _, .error e => .error e
    else .ok (2 * i + 1)

/-- The helper `p_queue::big_child_priority`. -/
def big_child_priority (q : p_queue) (i : Nat) : Except Fault Nat :=
  match q.is_leaf i with
  | .error e => .error e
  | .ok true => .error .assertion
  | .ok false =>
    if 2 * i + 2 < q.used then
      match readPriority q.heap (2 * i + 1), readPriority q.heap (2 * i + 2) with
      | .ok l, .ok r => if l > r then .ok l else .ok r
      | .error e, _ => .error e
      | _, .error e => .error e
    else readPriority q.heap (2 * i + 1)

/-- The helper `p_queue::swap_with_parent`. -/
def swap_with_parent (q : p_queue) (i : Nat) :
    Except Fault p_queue :=
  if i > 0 ∧ i < q.used then
    match readItem q.heap i with
    | .error e => .error e
    | .ok copy =>
      match q.parent_index i with
      | .error e => .error e
      | .ok p =>
        match readItem q.heap p with
        | .error e => .error e
        | .ok parent =>
          match writeItem q.heap i parent with
          | .error e => .error e
          | .ok h1 =>
            match writeItem h1 p copy with
            | .error e => .error e
            | .ok h2 => .ok { q with heap := h2 }
  else .error .assertion

/-- The body of the sift-up loop of `push`, at index `i`. -/
def push_body (q : p_queue) (i : Nat) :
    Except Fault p_queue :=
  match readPriority q.heap i with
  | .error e => .error e
  | .ok p =>
    match q.parent_priority i with
    | .error e => .error e
    | .ok pp => if p > pp then q.swap_with_parent i else .ok q

/-- The loop `for (size_type i = used - 1; i > 0; i = parent_index(i))` of `push`, entered at
index `i` with the given fuel. -/
def push_loop : Nat → p_queue → Nat →
    Except Fault p_queue
  | 0, _, _ => .error .outOfFuel
  | fuel + 1, q, i =>
    if i > 0 then
      match q.push_body i with
      | .error e => .error e
      | .ok q1 =>
        match q1.parent_index i with
        | .error e => .error e
        | .ok j => push_loop fuel q1 j
    else .ok q

/-- The modifier `p_queue::push`.  The argument `(1.5 * capacity) + 1` of `resize` is a
`double` converted to `size_type`, i.e. truncated: `3 * capacity / 2 + 1` (the product is exact
in a `double` for every capacity an allocation can have).  The two field assignments to
`heap[used]` are one write of the whole item. -/
def push (q : p_queue) (entry : value_type) (priority : Nat) :
    Except Fault p_queue :=
  match (if q.used = q.capacity then q.resize (3 * q.capacity / 2 + 1) else .ok q) with
  | .error e => .error e
  | .ok q1 =>
    match writeItem q1.heap q1.used (some { data := entry, priority := priority }) with
    | .error e => .error e
    | .ok h =>
      let q2 : p_queue := { q1 with heap := h, used := q1.used + 1 }
      push_loop (q2.used + 1) q2 (q2.used - 1)

/-- The body of the sweep of `pop`, at index `i`. -/
def pop_body (i : Nat) (q : p_queue) :
    Except Fault p_queue :=
  match q.is_leaf i with
  | .error e => .error e
  | .ok true => .ok q
  | .ok false =>
    match readPriority q.heap i with
    | .error e => .error e
    | .ok p =>
      match q.big_child_priority i with
      | .error e => .error e
      | .ok bp =>
        if p < bp then
          match q.big_child_index i with
          | .error e => .error e
          | .ok c => q.swap_with_parent c
        else .ok q

/-- The modifier `p_queue::pop`.  The sweep `for (size_type i = 0; i < used; i++)` is a counted
loop: its body never assigns `used`. -/
def pop (q : p_queue) : Except Fault p_queue :=
  if q.empty then .error .assertion
  else if q.used > 1 then
    match readItem q.heap (q.used - 1) with
    | .error e => .error e
    | .ok last =>
      match writeItem q.heap 0 last with
      | .error e => .error e
      | .ok h =>
        let q1 : p_queue := { q with heap := h, used := q.used - 1 }
        if !q1.empty then forLoop pop_body q1.used 0 q1 else .ok q1
  else .ok { q with used := q.used - 1 }

end p_queue

/-- Run a list of `push` calls, in order. -/
def pushAll : List (value_type × Nat) → p_queue → Except Fault p_queue
  | [], q => .ok q
  | (v, p) :: rest, q =>
    match q.push v p with
    | .ok q1 => pushAll rest q1
    | .error e => .error e

/-- The priority held in slot `i` of an array (`0` where the slot holds no item). -/
def priorityAt (a : Storage) (i : Nat) : Nat :=
  match a[i]? with
  | some (some it) => it.priority
  | _ => 0

/-- The representation invariant of the class: the array has `capacity` elements, the live
range fits in it, and every live slot `heap[0] .. heap[used - 1]` has been written. -/
def p_queue.wf (q : p_queue) : Prop :=
  q.heap.length = q.capacity ∧ q.used ≤ q.capacity ∧
    ∀ i, i < q.used → (q.heap.getD i none).isSome = true

/-- The max-heap property on the live slots: for every `i` in `[1, used)` the priority at
`(i - 1) / 2` is at least the priority at `i`. -/
def p_queue.max_heap (q : p_queue) : Prop :=
  ∀ i, i < q.used → 1 ≤ i → priorityAt q.heap i ≤ priorityAt q.heap ((i - 1) / 2)

instance p_queue.decidableWf (q : p_queue) : Decidable q.wf := by
  unfold p_queue.wf; infer_instance

instance p_queue.decidableMaxHeap (q : p_queue) : Decidable q.max_heap := by
  unfold p_queue.max_heap; infer_instance

/-- The items in the live slots `heap[0] .. heap[used - 1]`, in index order. -/
def p_queue.liveItems (q : p_queue) : List ItemType :=
  (q.heap.take q.used).reduceOption

/-- The priorities `P` on `[0, n)` form a max-heap except possibly on the edge from `i` to its
parent, and the children of `i` are already dominated by the parent of `i`. -/
def HeapExcept (P : Nat → Nat) (n i : Nat) : Prop :=
  (∀ j, j < n → 1 ≤ j → j ≠ i → P j ≤ P ((j - 1) / 2)) ∧
    (∀ c, c < n → 1 ≤ c → (c - 1) / 2 = i → 1 ≤ i → P c ≤ P ((i - 1) / 2))

/-- The client loop of the sequencing property, `while (!q.empty()) { q.front(); q.pop(); }`,
run with fuel; it returns the items `front()` pointed at, as (data, priority) pairs in the
order of extraction. -/
def drain : Nat → p_queue → Except Fault (List (value_type × Nat))
  | 0, q => if q.empty then .ok [] else .error .outOfFuel
  | fuel + 1, q =>
    if q.empty then .ok []
    else
      match q.front with
      | .error e => .error e
      | .ok v =>
        match q.pop with
        | .error e => .error e
        | .ok q1 =>
          match drain fuel q1 with
          | .error e => .error e
          | .ok rest => .ok ((v, priorityAt q.heap 0) :: rest)

/-- The pushes of the ascending-insert scenario: items `0, 1, ..., n - 1`, item `i` with
priority `i`. -/
def ascending (n : Nat) : List (value_type × Nat) :=
  (List.range n).map (fun i => (Int.ofNat i, i))

/-- The early-exit sift-up the spec describes, entered at index `i` with the given fuel: while
the item at `i` is not at the root and its priority is strictly greater than its parent's,
swap the two and continue from the parent's index; stop at the root or at the first level
that needs no swap. -/
def sift_up_early_exit : Nat → p_queue → Nat → Except Fault p_queue
  | 0, _, _ => .error .outOfFuel
  | fuel + 1, q, i =>
    if i > 0 then
      match readPriority q.heap i with
      | .error e => .error e
      | .ok p =>
        match q.parent_priority i with
        | .error e => .error e
        | .ok pp =>
          if p > pp then
            match q.swap_with_parent i with
            | .error e => .error e
            | .ok q1 => sift_up_early_exit fuel q1 ((i - 1) / 2)
          else .ok q
    else .ok q

/-- The insertion of the spec with the early-exit sift-up: the growth step and the placement
of the new item are those of `push`, the loop is `sift_up_early_exit`. -/
def p_queue.push_early_exit (q : p_queue) (entry : value_type) (priority : Nat) :
    Except Fault p_queue :=
  match (if q.used = q.capacity then q.resize (3 * q.capacity / 2 + 1) else .ok q) with
  | .error e => .error e
  | .ok q1 =>
    match writeItem q1.heap q1.used (some { data := entry, priority := priority }) with
    | .error e => .error e
    | .ok h =>
      let q2 : p_queue := { q1 with heap := h, used := q1.used + 1 }
      sift_up_early_exit (q2.used + 1) q2 (q2.used - 1)

/-- The states a client can bring a queue into: construction with any requested capacity,
then any returning `push`, `pop`, copy construction or assignment. -/
inductive Reachable : p_queue → Prop
  | ctor (initial_capacity : Nat) : Reachable (p_queue.ctor initial_capacity)
  | push {q q1 : p_queue} (entry : value_type) (priority : Nat) :
      Reachable q → q.push entry priority = .ok q1 → Reachable q1
  | pop {q q1 : p_queue} : Reachable q → q.pop = .ok q1 → Reachable q1
  | copy {src c : p_queue} : Reachable src → p_queue.ctor_copy src = .ok c → Reachable c
  | assign {self rhs c : p_queue} (this_addr rhs_addr : Nat) :
      Reachable self → Reachable rhs →
      p_queue.operator_assign this_addr rhs_addr self rhs = .ok c → Reachable c

/-- A scenario run: the given pushes on the queue `q0`, then the extraction loop until the
queue is empty. -/
def pushThenDrain (items : List (value_type × Nat)) (q0 : p_queue) :
    Except Fault (List (value_type × Nat)) :=
  match pushAll items q0 with
  | .ok q => drain q.used q
  | .error e => .error e

/-! ## Sample queues -/

/-- A two-item heap with one spare slot. -/
def sampleSpare : p_queue :=
  { heap := [some ⟨20, 9⟩, some ⟨21, 4⟩, none], capacity := 3, used := 2 }

/-- A two-item heap that fills its array, so the next `push` has to grow it. -/
def sampleFull : p_queue :=
  { heap := [some ⟨30, 8⟩, some ⟨31, 8⟩], capacity := 2, used := 2 }

/-- A three-item heap in a four-slot array. -/
def sampleThree : p_queue :=
  { heap := [some ⟨40, 7⟩, some ⟨41, 7⟩, some ⟨42, 3⟩, none], capacity := 4, used := 3 }

/-- A three-item heap in a four-slot array whose spare slot still holds an item (a slot that
was live earlier). -/
def sampleStale : p_queue :=
  { heap := [some ⟨2, 10⟩, some ⟨1, 1⟩, some ⟨3, 5⟩, some ⟨4, 7⟩], capacity := 4, used := 3 }

/-! ## Storage lemmas -/

theorem readItem_eq_ok {a : Storage} {i : Nat} (h : i < a.length) :
    readItem a i = .ok (a.getD i none) := by
  unfold readItem
  rw [List.getElem?_eq_getElem h]
  simp [List.getD_eq_getElem?_getD, List.getElem?_eq_getElem h]

theorem writeItem_eq_ok {a : Storage} {i : Nat} (v : Option ItemType) (h : i < a.length) :
    writeItem a i v = .ok (a.set i v) := by
  unfold writeItem
  rw [if_pos h]

theorem getD_set_storage (a : Storage) (i k : Nat) (v : Option ItemType)
    (h : i < a.length) : (a.set i v).getD k none = if k = i then v else a.getD k none := by
  simp only [List.getD_eq_getElem?_getD, List.getElem?_set]
  by_cases hk : i = k
  · subst hk; simp [h]
  · have hk2 : ¬ k = i := fun e => hk e.symm
    simp [hk, hk2]

theorem priorityAt_eq_getD (a : Storage) (i : Nat) :
    priorityAt a i = match a.getD i none with
      | some it => it.priority
      | none => 0 := by
  unfold priorityAt
  rw [List.getD_eq_getElem?_getD]
  cases h : a[i]? with
  | none => simp
  | some s => cases s <;> simp

theorem readPriority_eq_ok {a : Storage} {i : Nat}
    (h : (a.getD i none).isSome = true) : readPriority a i = .ok (priorityAt a i) := by
  unfold readPriority priorityAt
  rw [List.getD_eq_getElem?_getD] at h
  cases h1 : a[i]? with
  | none => rw [h1] at h; simp at h
  | some s =>
    cases s with
    | none => rw [h1] at h; simp at h
    | some it => rfl

theorem getD_newArray (m k : Nat) : (newArray m).getD k none = none := by
  unfold newArray
  rw [List.getD_eq_getElem?_getD, List.getElem?_replicate]
  by_cases h : k < m <;> simp [h]

theorem length_newArray (m : Nat) : (newArray m).length = m := by
  simp [newArray]

/-! ## The copy loop -/

theorem forLoop_copyItem (src : Storage) :
    ∀ (n i : Nat) (dst : Storage), i + n ≤ src.length → i + n ≤ dst.length →
      ∃ h, forLoop (copyItem src) n i dst = .ok h ∧ h.length = dst.length ∧
        ∀ k, h.getD k none
          = if i ≤ k ∧ k < i + n then src.getD k none else dst.getD k none := by
  intro n
  induction n with
  | zero =>
    intro i dst _ _
    refine ⟨dst, rfl, rfl, ?_⟩
    intro k
    have : ¬ (i ≤ k ∧ k < i + 0) := by omega
    rw [if_neg this]
  | succ n ih =>
    intro i dst hs hd
    have hi1 : i < src.length := by omega
    have hi2 : i < dst.length := by omega
    have hbody : copyItem src i dst = .ok (dst.set i (src.getD i none)) := by
      unfold copyItem
      rw [readItem_eq_ok hi1]
      exact writeItem_eq_ok _ hi2
    obtain ⟨h, hrun, hlen, hget⟩ :=
      ih (i + 1) (dst.set i (src.getD i none)) (by omega) (by rw [List.length_set]; omega)
    refine ⟨h, ?_, ?_, ?_⟩
    · simp only [forLoop, hbody]
      exact hrun
    · rw [hlen, List.length_set]
    · intro k
      rw [hget k, getD_set_storage _ _ _ _ hi2]
      by_cases hk : k = i
      · subst hk
        have h1 : ¬ (k + 1 ≤ k ∧ k < k + 1 + n) := by omega
        have h2 : k ≤ k ∧ k < k + (n + 1) := by omega
        rw [if_neg h1, if_pos h2, if_pos rfl]
      · by_cases hr : i + 1 ≤ k ∧ k < i + 1 + n
        · have h2 : i ≤ k ∧ k < i + (n + 1) := by omega
          rw [if_pos hr, if_pos h2]
        · have h2 : ¬ (i ≤ k ∧ k < i + (n + 1)) := by omega
          rw [if_neg hr, if_neg h2, if_neg hk]

theorem copyItems_newArray (src : Storage) (n m : Nat) (hs : n ≤ src.length)
    (hm : n ≤ m) :
    ∃ h, copyItems src n (newArray m) = .ok h ∧ h.length = m ∧
      ∀ k, h.getD k none = if k < n then src.getD k none else none := by
  obtain ⟨h, hrun, hlen, hget⟩ :=
    forLoop_copyItem src n 0 (newArray m) (by omega) (by rw [length_newArray]; omega)
  refine ⟨h, hrun, by rw [hlen, length_newArray], ?_⟩
  intro k
  rw [hget k, getD_newArray]
  by_cases hk : k < n
  · have : 0 ≤ k ∧ k < 0 + n := by omega
    rw [if_pos this, if_pos hk]
  · have : ¬ (0 ≤ k ∧ k < 0 + n) := by omega
    rw [if_neg this, if_neg hk]

/-! ## `resize` and `swap_with_parent` -/

theorem resize_ok (q : p_queue) (m : Nat) (hlen : q.used ≤ q.heap.length)
    (hm : q.used ≤ m) :
    ∃ h, q.resize m = .ok { heap := h, capacity := m, used := q.used } ∧ h.length = m ∧
      ∀ k, h.getD k none = if k < q.used then q.heap.getD k none else none := by
  obtain ⟨h, hrun, hl, hget⟩ := copyItems_newArray q.heap q.used m hlen hm
  refine ⟨h, ?_, hl, hget⟩
  unfold p_queue.resize
  have h1 : ¬ m < q.used := by omega
  have h2 : ¬ q.used < 0 := by omega
  simp only [if_neg h1, if_neg h2, hrun]

theorem swap_with_parent_ok (q : p_queue) (i : Nat) (h0 : 0 < i) (hi : i < q.used)
    (hlen : q.used ≤ q.heap.length) :
    ∃ h, q.swap_with_parent i = .ok { q with heap := h } ∧ h.length = q.heap.length ∧
      ∀ k, h.getD k none =
        if k = (i - 1) / 2 then q.heap.getD i none
        else if k = i then q.heap.getD ((i - 1) / 2) none
        else q.heap.getD k none := by
  have hil : i < q.heap.length := by omega
  have hpl : (i - 1) / 2 < q.heap.length := by omega
  refine ⟨(q.heap.set i (q.heap.getD ((i - 1) / 2) none)).set ((i - 1) / 2)
    (q.heap.getD i none), ?_, ?_, ?_⟩
  · unfold p_queue.swap_with_parent p_queue.parent_index
    have hc : i > 0 ∧ i < q.used := ⟨h0, hi⟩
    simp only [if_pos hc, readItem_eq_ok hil, readItem_eq_ok hpl, writeItem_eq_ok _ hil]
    rw [writeItem_eq_ok _ (by rw [List.length_set]; exact hpl)]
  · simp [List.length_set]
  · intro k
    rw [getD_set_storage _ _ _ _ (by rw [List.length_set]; exact hpl),
      getD_set_storage _ _ _ _ hil]

theorem swap_with_parent_used (q q1 : p_queue) (i : Nat)
    (h : q.swap_with_parent i = .ok q1) : q1.used = q.used ∧ q1.capacity = q.capacity := by
  unfold p_queue.swap_with_parent at h
  split at h
  · split at h
    · cases h
    · split at h
      · cases h
      · split at h
        · cases h
        · split at h
          · cases h
          · split at h
            · cases h
            · cases h
              exact ⟨rfl, rfl⟩
  · cases h

/-- The body of the sweep of `pop` never assigns `used` or `capacity`: the sweep is a counted
loop over `[0, used)`. -/
theorem pop_body_used (q q1 : p_queue) (i : Nat) (h : p_queue.pop_body i q = .ok q1) :
    q1.used = q.used ∧ q1.capacity = q.capacity := by
  unfold p_queue.pop_body at h
  split at h
  · cases h
  · cases h
    exact ⟨rfl, rfl⟩
  · split at h
    · cases h
    · split at h
      · cases h
      · split at h
        · split at h
          · cases h
          · exact swap_with_parent_used q q1 _ h
        · cases h
          exact ⟨rfl, rfl⟩

/-! ## Sift-up: the invariant of the loop of `push` -/

theorem heapExcept_swap {P Q : Nat → Nat} {n i : Nat} (h : HeapExcept P n i) (h1 : 1 ≤ i)
    (hlt : P ((i - 1) / 2) < P i)
    (hQ : ∀ k, Q k = if k = (i - 1) / 2 then P i else if k = i then P ((i - 1) / 2) else P k) :
    HeapExcept Q n ((i - 1) / 2) := by
  obtain ⟨ha, hb⟩ := h
  have hpi : (i - 1) / 2 ≠ i := by omega
  have hQp : Q ((i - 1) / 2) = P i := by rw [hQ, if_pos rfl]
  have hQi : Q i = P ((i - 1) / 2) := by rw [hQ, if_neg (Ne.symm hpi), if_pos rfl]
  have hQo : ∀ k, k ≠ (i - 1) / 2 → k ≠ i → Q k = P k := by
    intro k h1 h2; rw [hQ, if_neg h1, if_neg h2]
  constructor
  · intro j hj h1j hne
    by_cases hji : j = i
    · subst hji; rw [hQi, hQp]; omega
    · rw [hQo j hne hji]
      by_cases hp1 : (j - 1) / 2 = (i - 1) / 2
      · rw [hp1, hQp]
        have := ha j hj h1j hji
        rw [hp1] at this
        omega
      · by_cases hp2 : (j - 1) / 2 = i
        · rw [hp2, hQi]
          exact hb j hj h1j hp2 h1
        · rw [hQo _ hp1 hp2]
          exact ha j hj h1j hji
  · intro c hc h1c hpc h1p
    have hpp1 : ((i - 1) / 2 - 1) / 2 ≠ (i - 1) / 2 := by omega
    have hpp2 : ((i - 1) / 2 - 1) / 2 ≠ i := by omega
    rw [hQo _ hpp1 hpp2]
    have hpar := ha ((i - 1) / 2) (by omega) h1p hpi
    by_cases hci : c = i
    · subst hci; rw [hQi]; exact hpar
    · have hcp : c ≠ (i - 1) / 2 := by omega
      rw [hQo c hcp hci]
      have := ha c hc h1c hci
      rw [hpc] at this
      omega

theorem heapExcept_keep {P : Nat → Nat} {n i : Nat} (h : HeapExcept P n i) (h1 : 1 ≤ i)
    (hin : i < n) (hle : P i ≤ P ((i - 1) / 2)) : HeapExcept P n ((i - 1) / 2) := by
  obtain ⟨ha, _⟩ := h
  have hall : ∀ j, j < n → 1 ≤ j → P j ≤ P ((j - 1) / 2) := by
    intro j hj h1j
    by_cases hji : j = i
    · subst hji; exact hle
    · exact ha j hj h1j hji
  constructor
  · intro j hj h1j _
    exact hall j hj h1j
  · intro c hc h1c hpc h1p
    have h2 := hall c hc h1c
    have h3 := hall ((i - 1) / 2) (by omega) h1p
    rw [hpc] at h2
    omega

theorem heapExcept_of_heap {P Q : Nat → Nat} {n : Nat}
    (h : ∀ j, j < n → 1 ≤ j → P j ≤ P ((j - 1) / 2)) (hQ : ∀ k, k < n → Q k = P k) :
    HeapExcept Q (n + 1) n := by
  constructor
  · intro j hj h1j hne
    have hjn : j < n := by omega
    rw [hQ j hjn, hQ ((j - 1) / 2) (by omega)]
    exact h j hjn h1j
  · intro c hc h1c hpc _
    omega

/-! ## Swapping two slots permutes the live range -/

theorem take_eq_map_range (a : Storage) (n : Nat) (hn : n ≤ a.length) :
    a.take n = (List.range n).map (fun k => a.getD k none) := by
  apply List.ext_getElem?
  intro k
  by_cases hk : k < n
  · have hk2 : k < a.length := by omega
    rw [List.getElem?_take_of_lt hk]
    simp [hk, List.getD_eq_getElem?_getD, List.getElem?_eq_getElem hk2]
  · rw [List.getElem?_take_eq_none (Nat.le_of_not_lt hk),
      List.getElem?_eq_none (by simp; omega)]

theorem take_perm_of_swap (a b : Storage) (n i j : Nat) (hi : i < n) (hj : j < n)
    (hn : n ≤ a.length) (hl : b.length = a.length)
    (h : ∀ k, b.getD k none =
      if k = j then a.getD i none else if k = i then a.getD j none else a.getD k none) :
    (b.take n).Perm (a.take n) := by
  rw [take_eq_map_range a n hn, take_eq_map_range b n (by omega)]
  have hfun : (fun k => b.getD k none)
      = (fun k => a.getD k none) ∘ (Equiv.swap j i) := by
    funext k
    simp only [Function.comp, Equiv.swap_apply_def]
    rw [h k]
    by_cases h1 : k = j
    · rw [if_pos h1, if_pos h1]
    · by_cases h2 : k = i
      · rw [if_neg h1, if_pos h2, if_neg h1, if_pos h2]
      · rw [if_neg h1, if_neg h2, if_neg h1, if_neg h2]
  rw [hfun, ← List.map_map]
  apply List.Perm.map
  rw [List.perm_ext_iff_of_nodup
    ((List.nodup_range n).map (Equiv.swap j i).injective) (List.nodup_range n)]
  intro x
  simp only [List.mem_map, List.mem_range]
  constructor
  · rintro ⟨k, hk, rfl⟩
    rw [Equiv.swap_apply_def]
    split_ifs <;> omega
  · intro hx
    refine ⟨Equiv.swap j i x, ?_, by simp⟩
    rw [Equiv.swap_apply_def]
    split_ifs <;> omega

/-! ## The sift-up loop of `push` -/

theorem priorityAt_of_getD_eq {a b : Storage} {k l : Nat}
    (h : a.getD k none = b.getD l none) : priorityAt a k = priorityAt b l := by
  rw [priorityAt_eq_getD, priorityAt_eq_getD, h]

theorem push_body_ok (q : p_queue) (i : Nat) (h0 : 0 < i) (hi : i < q.used)
    (hlive : ∀ k, k < q.used → (q.heap.getD k none).isSome = true) :
    q.push_body i =
      if priorityAt q.heap i > priorityAt q.heap ((i - 1) / 2) then q.swap_with_parent i
      else .ok q := by
  unfold p_queue.push_body p_queue.parent_priority
  have hc : i > 0 ∧ i < q.used := ⟨h0, hi⟩
  rw [readPriority_eq_ok (hlive i hi)]
  simp only [if_pos hc]
  rw [readPriority_eq_ok (hlive _ (by omega))]

theorem push_loop_ok : ∀ (fuel : Nat) (q : p_queue) (i : Nat),
    i < fuel → i < q.used → q.used ≤ q.heap.length →
    (∀ k, k < q.used → (q.heap.getD k none).isSome = true) →
    ∃ h, p_queue.push_loop fuel q i = .ok { q with heap := h } ∧ h.length = q.heap.length ∧
      (∀ k, k < q.used → (h.getD k none).isSome = true) ∧
      (HeapExcept (priorityAt q.heap) q.used i →
        ∀ j, j < q.used → 1 ≤ j → priorityAt h j ≤ priorityAt h ((j - 1) / 2)) ∧
      (h.take q.used).Perm (q.heap.take q.used) := by
  intro fuel
  induction fuel with
  | zero => intro q i hf; omega
  | succ fuel ih =>
    intro q i hf hi hlen hlive
    by_cases h0 : i = 0
    · subst h0
      refine ⟨q.heap, ?_, rfl, hlive, ?_, List.Perm.refl _⟩
      · simp [p_queue.push_loop]
      · intro hinv j hj h1j
        exact hinv.1 j hj h1j (by omega)
    · have hpos : 0 < i := Nat.pos_of_ne_zero h0
      have hcond : i > 0 ∧ i < q.used := ⟨hpos, hi⟩
      by_cases hgt : priorityAt q.heap i > priorityAt q.heap ((i - 1) / 2)
      · obtain ⟨h1, hswap, hl1, hget1⟩ := swap_with_parent_ok q i hpos hi hlen
        have hlive1 : ∀ k, k < q.used → (h1.getD k none).isSome = true := by
          intro k hk
          rw [hget1 k]
          split_ifs
          · exact hlive i hi
          · exact hlive _ (by omega)
          · exact hlive k hk
        have hQ : ∀ k, priorityAt h1 k =
            if k = (i - 1) / 2 then priorityAt q.heap i
            else if k = i then priorityAt q.heap ((i - 1) / 2) else priorityAt q.heap k := by
          intro k
          have hk := hget1 k
          split_ifs with c1 c2
          · rw [if_pos c1] at hk; exact priorityAt_of_getD_eq hk
          · rw [if_neg c1, if_pos c2] at hk; exact priorityAt_of_getD_eq hk
          · rw [if_neg c1, if_neg c2] at hk; exact priorityAt_of_getD_eq hk
        obtain ⟨h, hrun, hl, hlv, hheap, hperm⟩ :=
          ih { q with heap := h1 } ((i - 1) / 2) (by omega) (by show (i - 1) / 2 < q.used; omega)
            (by show q.used ≤ h1.length; omega) hlive1
        refine ⟨h, ?_, by rw [hl]; exact hl1, hlv, ?_, ?_⟩
        · simp only [p_queue.push_loop, if_pos hpos, push_body_ok q i hpos hi hlive,
            if_pos hgt, hswap, p_queue.parent_index, if_pos hcond]
          exact hrun
        · intro hinv
          exact hheap (heapExcept_swap hinv hpos hgt hQ)
        · exact hperm.trans
            (take_perm_of_swap q.heap h1 q.used i ((i - 1) / 2) hi (by omega) hlen hl1 hget1)
      · obtain ⟨h, hrun, hl, hlv, hheap, hperm⟩ :=
          ih q ((i - 1) / 2) (by omega) (by omega) hlen hlive
        refine ⟨h, ?_, hl, hlv, ?_, hperm⟩
        · simp only [p_queue.push_loop, if_pos hpos, push_body_ok q i hpos hi hlive,
            if_neg hgt, p_queue.parent_index, if_pos hcond]
          exact hrun
        · intro hinv
          exact hheap (heapExcept_keep hinv hpos hi (by omega))

/-! ## `push` -/

theorem take_congr_of_getD (a b : Storage) (n : Nat) (ha : n ≤ a.length) (hb : n ≤ b.length)
    (h : ∀ k, k < n → b.getD k none = a.getD k none) : b.take n = a.take n := by
  rw [take_eq_map_range a n ha, take_eq_map_range b n hb]
  apply List.map_congr_left
  intro k hk
  exact h k (List.mem_range.mp hk)

theorem push_grow_ok (q : p_queue) (hwf : q.wf) :
    ∃ q1, (if q.used = q.capacity then q.resize (3 * q.capacity / 2 + 1) else .ok q)
        = .ok q1 ∧ q1.used = q.used ∧
      q1.capacity = (if q.used = q.capacity then 3 * q.capacity / 2 + 1 else q.capacity) ∧
      q1.heap.length = q1.capacity ∧ q.used < q1.capacity ∧
      ∀ k, k < q.used → q1.heap.getD k none = q.heap.getD k none := by
  obtain ⟨hlen, hle, _⟩ := hwf
  by_cases hfull : q.used = q.capacity
  · obtain ⟨h, hrun, hl, hget⟩ :=
      resize_ok q (3 * q.capacity / 2 + 1) (by omega) (by omega)
    refine ⟨{ heap := h, capacity := 3 * q.capacity / 2 + 1, used := q.used },
      by rw [if_pos hfull]; exact hrun, rfl, by rw [if_pos hfull], hl, ?_, ?_⟩
    · show q.used < 3 * q.capacity / 2 + 1
      omega
    · intro k hk
      show h.getD k none = _
      rw [hget k, if_pos hk]
  · refine ⟨q, by rw [if_neg hfull], rfl, by rw [if_neg hfull], hlen, by omega, ?_⟩
    intro k _
    rfl

theorem push_ok (q : p_queue) (entry : value_type) (priority : Nat) (hwf : q.wf) :
    ∃ q1, q.push entry priority = .ok q1 ∧ q1.used = q.used + 1 ∧
      q1.capacity = (if q.used = q.capacity then 3 * q.capacity / 2 + 1 else q.capacity) ∧
      q1.wf ∧ (q.max_heap → q1.max_heap) ∧
      q1.liveItems.Perm (q.liveItems ++ [{ data := entry, priority := priority }]) := by
  obtain ⟨g, hgrow, hgu, hgc, hgl, hglt, hgget⟩ := push_grow_ok q hwf
  obtain ⟨hlen, hle, hlive⟩ := hwf
  have hul : g.used < g.heap.length := by omega
  let item : ItemType := { data := entry, priority := priority }
  let h2 : Storage := g.heap.set g.used (some item)
  have hh2 : ∀ k, h2.getD k none = if k = g.used then some item else g.heap.getD k none :=
    fun k => getD_set_storage _ _ _ _ hul
  have hl2 : h2.length = g.heap.length := List.length_set _ _ _
  let q2 : p_queue := { heap := h2, capacity := g.capacity, used := g.used + 1 }
  have hlive2 : ∀ k, k < q2.used → (q2.heap.getD k none).isSome = true := by
    intro k hk
    show (h2.getD k none).isSome = true
    rw [hh2 k]
    by_cases hkn : k = g.used
    · rw [if_pos hkn]; rfl
    · rw [if_neg hkn, hgget k (by show k < q.used; have : k < g.used + 1 := hk; omega)]
      exact hlive k (by have : k < g.used + 1 := hk; omega)
  have hinv : q.max_heap → HeapExcept (priorityAt q2.heap) q2.used (q2.used - 1) := by
    intro hheap
    show HeapExcept (priorityAt h2) (g.used + 1) (g.used + 1 - 1)
    rw [Nat.add_sub_cancel]
    apply heapExcept_of_heap (P := priorityAt q.heap)
    · intro j hj h1j
      rw [hgu] at hj
      exact hheap j hj h1j
    · intro k hk
      apply priorityAt_of_getD_eq
      rw [hh2 k, if_neg (by omega)]
      exact hgget k (by omega)
  obtain ⟨h, hrun, hl, hlv, hhp, hperm⟩ :=
    push_loop_ok (q2.used + 1) q2 (q2.used - 1) (by omega)
      (by show g.used + 1 - 1 < g.used + 1; omega)
      (by show g.used + 1 ≤ h2.length; omega) hlive2
  refine ⟨{ q2 with heap := h }, ?_, ?_, hgc, ⟨?_, ?_, hlv⟩, fun hheap => hhp (hinv hheap), ?_⟩
  · unfold p_queue.push
    rw [hgrow]
    simp only [writeItem_eq_ok _ hul]
    exact hrun
  · show g.used + 1 = q.used + 1
    rw [hgu]
  · show h.length = g.capacity
    rw [hl, hl2, hgl]
  · show g.used + 1 ≤ g.capacity
    omega
  · show (h.take (g.used + 1)).reduceOption.Perm
      ((q.heap.take q.used).reduceOption ++ [item])
    have h2take : h2.take (g.used + 1) = q.heap.take q.used ++ [some item] := by
      rw [List.take_succ]
      have e1 : h2.take g.used = q.heap.take q.used := by
        rw [← hgu]
        apply take_congr_of_getD _ _ _ (by omega) (by omega)
        intro k hk
        rw [hh2 k, if_neg (by omega)]
        exact hgget k (by omega)
      have e2 : h2[g.used]? = some (some item) := by
        show (g.heap.set g.used (some item))[g.used]? = _
        rw [List.getElem?_set_self hul]
      rw [e1, e2]
      rfl
    have hp : (h.take (g.used + 1)).Perm (h2.take (g.used + 1)) := hperm
    have hp2 := hp.filterMap id
    rw [h2take] at hp2
    have e3 : (q.heap.take q.used ++ [some item]).reduceOption
        = (q.heap.take q.used).reduceOption ++ [item] := by
      rw [List.reduceOption_append]
      rfl
    rw [← e3]
    exact hp2

/-! ## The root dominates the live range -/

theorem root_dominates (q : p_queue) (hheap : q.max_heap) :
    ∀ i, i < q.used → priorityAt q.heap i ≤ priorityAt q.heap 0 := by
  intro i
  induction i using Nat.strong_induction_on with
  | _ i ih =>
    intro hi
    by_cases h0 : i = 0
    · subst h0; exact Nat.le_refl _
    · have h1 := hheap i hi (by omega)
      have h2 := ih ((i - 1) / 2) (by omega) (by omega)
      omega

theorem slot_eq_of_getD {a b : Storage} {k : Nat} (ha : k < a.length) (hb : k < b.length)
    (h : a.getD k none = b.getD k none) : a[k]? = b[k]? := by
  rw [List.getD_eq_getElem?_getD, List.getD_eq_getElem?_getD, List.getElem?_eq_getElem ha,
    List.getElem?_eq_getElem hb] at h
  rw [List.getElem?_eq_getElem ha, List.getElem?_eq_getElem hb]
  simpa using h

theorem front_congr (c src : p_queue) (hu : c.used = src.used) (hc : src.used ≤ c.heap.length)
    (hs : src.used ≤ src.heap.length)
    (h : ∀ k, k < src.used → c.heap.getD k none = src.heap.getD k none) :
    c.front = src.front := by
  unfold p_queue.front p_queue.empty
  rw [hu]
  by_cases h0 : src.used = 0
  · simp [h0]
  · have hpos : 0 < src.used := Nat.pos_of_ne_zero h0
    simp only [if_neg h0]
    unfold readData
    rw [slot_eq_of_getD (by omega) (by omega) (h 0 hpos)]

theorem copy_ok (src : p_queue) (hlen : src.heap.length = src.capacity)
    (hle : src.used ≤ src.capacity) :
    ∃ h, copyItems src.heap src.used (newArray src.capacity) = .ok h ∧
      h.length = src.capacity ∧ h.take src.used = src.heap.take src.used ∧
      (∀ k, k < src.used → h.getD k none = src.heap.getD k none) := by
  obtain ⟨h, hrun, hl, hget⟩ :=
    copyItems_newArray src.heap src.used src.capacity (by omega) hle
  have hg : ∀ k, k < src.used → h.getD k none = src.heap.getD k none := by
    intro k hk
    rw [hget k, if_pos hk]
  exact ⟨h, hrun, hl, take_congr_of_getD _ _ _ (by omega) (by omega) hg, hg⟩

/-! ## Claims -/

/-- C2: `push` preserves the max-heap property.  For every queue that satisfies the
representation invariant (array of `capacity` slots, `used <= capacity`, live slots written) and
whose live slots form a max-heap, and for every value and priority, `push` returns a queue with
`used + 1` live slots in which the priority at `(i - 1) / 2` is at least the priority at `i` for
every `i` in `[1, used + 1)`. -/
theorem push_preserves_max_heap (q : p_queue) (entry : value_type) (priority : Nat)
    (hwf : q.wf) (hheap : q.max_heap) :
    ∃ q1, q.push entry priority = .ok q1 ∧ q1.used = q.used + 1 ∧ q1.wf ∧
      ∀ i, 1 ≤ i → i < q.used + 1 →
        priorityAt q1.heap i ≤ priorityAt q1.heap ((i - 1) / 2) := by
  obtain ⟨q1, hrun, hu, _, hwf1, hh, _⟩ := push_ok q entry priority hwf
  refine ⟨q1, hrun, hu, hwf1, ?_⟩
  intro i h1 hi
  exact hh hheap i (by rw [hu]; exact hi) h1

theorem push_preserves_max_heap_witness :
    sampleSpare.wf ∧ sampleSpare.max_heap ∧
      ∃ q1, sampleSpare.push 22 11 = .ok q1 ∧ q1.used = sampleSpare.used + 1 ∧ q1.wf ∧
        ∀ i, 1 ≤ i → i < sampleSpare.used + 1 →
          priorityAt q1.heap i ≤ priorityAt q1.heap ((i - 1) / 2) :=
  ⟨by decide, by decide, push_preserves_max_heap sampleSpare 22 11 (by decide) (by decide)⟩

/-- C3: `front` returns the maximum.  On a non-empty queue that satisfies the representation
invariant and the max-heap property, `front` returns the data of the item stored at index 0, and
the priority of that item is at least the priority of every live slot.  `front` is a `const`
member: it yields a value only, so the queue it is called on is the queue afterwards. -/
theorem front_returns_maximum (q : p_queue) (hwf : q.wf) (hheap : q.max_heap)
    (hne : 0 < q.used) :
    ∃ it, q.heap[0]? = some (some it) ∧ q.front = .ok it.data ∧
      ∀ i, i < q.used → priorityAt q.heap i ≤ it.priority := by
  obtain ⟨_, _, hlive⟩ := hwf
  have h0 := hlive 0 hne
  rw [List.getD_eq_getElem?_getD] at h0
  cases hs : q.heap[0]? with
  | none => rw [hs] at h0; simp at h0
  | some s =>
    cases s with
    | none => rw [hs] at h0; simp at h0
    | some it =>
      refine ⟨it, rfl, ?_, ?_⟩
      · unfold p_queue.front p_queue.empty readData
        have : ¬ q.used = 0 := by omega
        simp only [if_neg this, hs]
        rfl
      · intro i hi
        have := root_dominates q hheap i hi
        have e : priorityAt q.heap 0 = it.priority := by
          unfold priorityAt
          rw [hs]
        rw [e] at this
        exact this

theorem front_returns_maximum_witness :
    sampleThree.wf ∧ sampleThree.max_heap ∧ 0 < sampleThree.used ∧
      ∃ it, sampleThree.heap[0]? = some (some it) ∧ sampleThree.front = .ok it.data ∧
        ∀ i, i < sampleThree.used → priorityAt sampleThree.heap i ≤ it.priority :=
  ⟨by decide, by decide, by decide,
    front_returns_maximum sampleThree (by decide) (by decide) (by decide)⟩

/-- C5: `push` neither loses nor invents data, growth step included.  For every queue that
satisfies the representation invariant (in particular one with `used = capacity`, whose array
is reallocated) and every value and priority, `push` returns a queue whose `used + 1` live slots
are all written and hold, as a multiset, the items of the old live slots plus the pushed item. -/
theorem push_adds_exactly_one_item (q : p_queue) (entry : value_type) (priority : Nat)
    (hwf : q.wf) :
    ∃ q1, q.push entry priority = .ok q1 ∧ q1.used = q.used + 1 ∧ q1.wf ∧
      (↑q1.liveItems : Multiset ItemType)
        = { data := entry, priority := priority } ::ₘ (↑q.liveItems : Multiset ItemType) := by
  obtain ⟨q1, hrun, hu, _, hwf1, _, hperm⟩ := push_ok q entry priority hwf
  refine ⟨q1, hrun, hu, hwf1, ?_⟩
  rw [Multiset.cons_coe]
  exact Multiset.coe_eq_coe.mpr (hperm.trans (List.perm_append_singleton _ _))

theorem push_adds_exactly_one_item_witness :
    sampleFull.wf ∧ sampleFull.used = sampleFull.capacity ∧
      ∃ q1, sampleFull.push 32 8 = .ok q1 ∧ q1.used = sampleFull.used + 1 ∧ q1.wf ∧
        (↑q1.liveItems : Multiset ItemType)
          = { data := 32, priority := 8 } ::ₘ (↑sampleFull.liveItems : Multiset ItemType) :=
  ⟨by decide, by decide, push_adds_exactly_one_item sampleFull 32 8 (by decide)⟩

/-- C9: construction.  For every requested `initial_capacity` the constructed queue has
`used = 0` (so `size() = 0` and `empty()` holds), its capacity and the length of its array are
`max initial_capacity 1`: a request of at least 1 is used as it is, and a request of 0 is
replaced by `DEFAULT_CAPACITY`, which is 1. -/
theorem ctor_empty_with_capacity (initial_capacity : Nat) :
    (p_queue.ctor initial_capacity).used = 0 ∧ (p_queue.ctor initial_capacity).size = 0 ∧
      (p_queue.ctor initial_capacity).empty = true ∧
      (p_queue.ctor initial_capacity).capacity = max initial_capacity 1 ∧
      (p_queue.ctor initial_capacity).heap.length = max initial_capacity 1 ∧
      (p_queue.ctor (initial_capacity + 1)).capacity = initial_capacity + 1 ∧
      (p_queue.ctor 0).capacity = DEFAULT_CAPACITY ∧ DEFAULT_CAPACITY = 1 := by
  have hcap : (p_queue.ctor initial_capacity).capacity = max initial_capacity 1 := by
    unfold p_queue.ctor DEFAULT_CAPACITY
    by_cases h : initial_capacity < 1
    · simp only [if_pos h]; omega
    · simp only [if_neg h]; omega
  refine ⟨rfl, rfl, rfl, hcap, ?_, ?_, rfl, rfl⟩
  · rw [← hcap]
    exact length_newArray _
  · unfold p_queue.ctor
    have h : ¬ initial_capacity + 1 < 1 := by omega
    simp only [if_neg h]

/-- C10: copy construction and assignment reproduce the source.  For every queue `src` whose
array has `capacity` slots and whose `used` is at most `capacity`, the copy constructor, and
`operator=` called on a receiver at a different address (whatever the receiver holds), return a
queue with the capacity of `src`, the `used` of `src`, an array of that capacity and the live
slots of `src` in index order, hence the same `size()` and the same `front()`; both take `src`
by `const` reference and return the new receiver only.  Self-assignment returns the receiver as
it was. -/
theorem copy_and_assign_reproduce_source (src self : p_queue) (this_addr rhs_addr : Nat)
    (hlen : src.heap.length = src.capacity) (hle : src.used ≤ src.capacity)
    (hne : this_addr ≠ rhs_addr) :
    (∃ c, p_queue.ctor_copy src = .ok c ∧ c.capacity = src.capacity ∧ c.used = src.used ∧
        c.heap.length = src.capacity ∧ c.heap.take c.used = src.heap.take src.used ∧
        c.size = src.size ∧ c.front = src.front) ∧
      (∃ c, p_queue.operator_assign this_addr rhs_addr self src = .ok c ∧
        c.capacity = src.capacity ∧ c.used = src.used ∧
        c.heap.length = src.capacity ∧ c.heap.take c.used = src.heap.take src.used ∧
        c.size = src.size ∧ c.front = src.front) ∧
      p_queue.operator_assign this_addr this_addr self self = .ok self := by
  obtain ⟨h, hrun, hl, htake, hget⟩ := copy_ok src hlen hle
  have hfront : p_queue.front { heap := h, capacity := src.capacity, used := src.used }
      = src.front :=
    front_congr _ src rfl (by show src.used ≤ h.length; omega) (by omega) hget
  refine ⟨⟨{ heap := h, capacity := src.capacity, used := src.used }, ?_, rfl, rfl, hl,
      htake, rfl, hfront⟩,
    ⟨{ heap := h, capacity := src.capacity, used := src.used }, ?_, rfl, rfl, hl,
      htake, rfl, hfront⟩, ?_⟩
  · unfold p_queue.ctor_copy
    rw [hrun]
  · unfold p_queue.operator_assign
    rw [if_pos hne, hrun]
  · unfold p_queue.operator_assign
    rw [if_neg (fun h => h rfl)]

theorem copy_and_assign_reproduce_source_witness :
    sampleThree.heap.length = sampleThree.capacity ∧ sampleThree.used ≤ sampleThree.capacity ∧
      (1 : Nat) ≠ 2 ∧
      (∃ c, p_queue.ctor_copy sampleThree = .ok c ∧ c.capacity = sampleThree.capacity ∧
        c.used = sampleThree.used ∧ c.heap.length = sampleThree.capacity ∧
        c.heap.take c.used = sampleThree.heap.take sampleThree.used ∧
        c.size = sampleThree.size ∧ c.front = sampleThree.front) ∧
      (∃ c, p_queue.operator_assign 1 2 sampleFull sampleThree = .ok c ∧
        c.capacity = sampleThree.capacity ∧ c.used = sampleThree.used ∧
        c.heap.length = sampleThree.capacity ∧
        c.heap.take c.used = sampleThree.heap.take sampleThree.used ∧
        c.size = sampleThree.size ∧ c.front = sampleThree.front) ∧
      p_queue.operator_assign 1 1 sampleFull sampleFull = .ok sampleFull :=
  ⟨by decide, by decide, by decide,
    copy_and_assign_reproduce_source sampleThree sampleFull 1 2 (by decide) (by decide)
      (by decide)⟩

/-! ## `pop` and the leaf test

`is_leaf(i)` answers `true` only when `2 * i + 1 == used`; for a childless node with
`2 * i + 1 > used` it answers `false`, and the sweep of `pop` then reads `heap[2 * i + 1]`, a
slot outside the live range. -/

/-- C1: `pop` does not complete on a three-item heap that fills its array.  After
`p_queue q(3)` and three pushes the queue is a well-formed max-heap with `used = capacity = 3`;
`pop` moves `heap[2]` to the root and decrements `used` to 2; at `i = 1` the call `is_leaf(1)`
returns `false`, so `big_child_priority(1)` reads `heap[3]`, past the end of the array. -/
theorem pop_reads_past_array_on_full_three_heap :
    ∃ q, pushAll [(1, 1), (2, 10), (3, 5)] (p_queue.ctor 3) = .ok q ∧ q.wf ∧ q.max_heap ∧
      1 ≤ q.used ∧ q.used ≤ q.capacity ∧
      p_queue.is_leaf { q with used := q.used - 1 } 1 = .ok false ∧
      q.pop = .error .outOfBounds :=
  ⟨{ heap := [some ⟨2, 10⟩, some ⟨1, 1⟩, some ⟨3, 5⟩], capacity := 3, used := 3 },
    by decide, by decide, by decide, by decide, by decide, by decide, by decide⟩

/-- C4: the extraction loop leaves the array after four pushes on a default-constructed
queue.  The four pushes succeed (capacity grows 1, 2, 4) and `front()` returns the item of
priority 10; the first `pop` then reads `heap[5]` of a four-slot array at `i = 2`.  What the
loop does from there depends on the value found past the array, which the source does not
determine (a value above 5 makes `swap_with_parent(5)` fail its assertion); the model stops at
the read. -/
theorem drain_stops_at_first_pop_after_four_pushes :
    ∃ q, pushAll [(1, 1), (2, 10), (3, 5), (4, 7)] (p_queue.ctor DEFAULT_CAPACITY) = .ok q ∧
      q.used = 4 ∧ q.capacity = 4 ∧ q.front = .ok 2 ∧ q.pop = .error .outOfBounds ∧
      drain q.used q = .error .outOfBounds :=
  ⟨{ heap := [some ⟨2, 10⟩, some ⟨4, 7⟩, some ⟨3, 5⟩, some ⟨1, 1⟩], capacity := 4, used := 4 },
    by decide, by decide, by decide, by decide, by decide, by decide⟩

/-- C6: `pop` yields no queue on a five-item heap that fills its array, so there is no
multiset of remaining items.  After `p_queue q(5)` and five pushes the queue is a well-formed
max-heap; `pop` reads `heap[5]` of the five-slot array at `i = 2`. -/
theorem pop_yields_no_queue_on_full_five_heap :
    ∃ q, pushAll [(1, 9), (2, 8), (3, 7), (4, 6), (5, 5)] (p_queue.ctor 5) = .ok q ∧ q.wf ∧
      q.max_heap ∧ q.used = 5 ∧ q.pop = .error .outOfBounds :=
  ⟨{ heap := [some ⟨1, 9⟩, some ⟨2, 8⟩, some ⟨3, 7⟩, some ⟨4, 6⟩, some ⟨5, 5⟩], capacity := 5,
      used := 5 },
    by decide, by decide, by decide, by decide, by decide⟩

/-- C7: size accounting stops at the first `pop` of a six-item queue.  A queue constructed
with capacity 6 has size 0; after six pushes its size is 6 and it is not empty; `pop` then
reads `heap[7]` of the six-slot array at `i = 3` and returns no queue of size 5. -/
theorem size_not_decreased_by_pop_on_six_items :
    ∃ q, pushAll [(1, 3), (2, 1), (3, 4), (4, 1), (5, 5), (6, 9)] (p_queue.ctor 6) = .ok q ∧
      (p_queue.ctor 6).size = 0 ∧ (p_queue.ctor 6).empty = true ∧ q.size = 6 ∧
      q.empty = false ∧ q.pop = .error .outOfBounds :=
  ⟨{ heap := [some ⟨6, 9⟩, some ⟨3, 4⟩, some ⟨5, 5⟩, some ⟨4, 1⟩, some ⟨2, 1⟩, some ⟨1, 3⟩],
      capacity := 6, used := 6 },
    by decide, by decide, by decide, by decide, by decide, by decide⟩

/-- C8: `pop` fails on non-empty queues that satisfy the invariants.  On the empty queue `pop`
and `front` both stop at their assertion.  After three pushes on a default-constructed queue
(a well-formed max-heap, capacity 4) `front` returns, but `pop` reads the priority of `heap[3]`,
a slot that was never written.  On a well-formed three-item max-heap whose slot 3 holds an item
of priority 7, `pop` reads that priority, finds it larger than the priority 1 at index 1, and
calls `swap_with_parent(3)` with `used = 2`, whose assertion fails. -/
theorem pop_fails_on_nonempty_valid_queues :
    (p_queue.ctor DEFAULT_CAPACITY).pop = .error .assertion ∧
      (p_queue.ctor DEFAULT_CAPACITY).front = .error .assertion ∧
      (∃ q, pushAll [(1, 1), (2, 10), (3, 5)] (p_queue.ctor DEFAULT_CAPACITY) = .ok q ∧
        q.wf ∧ q.max_heap ∧ 0 < q.used ∧ q.front = .ok 2 ∧
        q.pop = .error .indeterminate) ∧
      sampleStale.wf ∧ sampleStale.max_heap ∧ 0 < sampleStale.used ∧
      sampleStale.front = .ok 2 ∧ sampleStale.pop = .error .assertion :=
  ⟨by decide, by decide,
    ⟨{ heap := [some ⟨2, 10⟩, some ⟨1, 1⟩, some ⟨3, 5⟩, none], capacity := 4, used := 3 },
      by decide, by decide, by decide, by decide, by decide, by decide⟩,
    by decide, by decide, by decide, by decide, by decide⟩

/-- C12: the ascending-insert scenario stops at its first `pop` for `n = 4` and for the spec's
`n = 100`.  On a default-constructed queue the pushes of priorities `0 .. n - 1` succeed and
`front()` returns the item of priority `n - 1`; for `n = 4` (capacity 4) the first `pop` reads
`heap[5]`, past the end of the array, and for `n = 100` (capacity 139) it reads the priority of
`heap[101]`, a slot never written.  For `n = 2` the loop returns priorities 1, 0. -/
theorem ascending_scenario_stops_at_first_pop :
    pushThenDrain (ascending 2) (p_queue.ctor DEFAULT_CAPACITY) = .ok [(1, 1), (0, 0)] ∧
      (pushAll (ascending 4) (p_queue.ctor DEFAULT_CAPACITY)).map
          (fun q => (q.used, q.capacity, q.front)) = .ok (4, 4, .ok 3) ∧
      pushThenDrain (ascending 4) (p_queue.ctor DEFAULT_CAPACITY) = .error .outOfBounds ∧
      (pushAll (ascending 100) (p_queue.ctor DEFAULT_CAPACITY)).map
          (fun q => (q.used, q.capacity, q.front)) = .ok (100, 139, .ok 99) ∧
      pushThenDrain (ascending 100) (p_queue.ctor DEFAULT_CAPACITY) = .error .indeterminate := by
  refine ⟨by decide, by decide, by decide, ?_, ?_⟩
  · set_option maxRecDepth 100000 in decide
  · set_option maxRecDepth 100000 in decide

/-- C13: the three-item scenario stops at its first `pop`.  On a default-constructed queue,
after `push(100, 1)`, `push(200, 10)`, `push(300, 5)` the size is 3, the capacity 4 and
`front()` returns 200; `pop` then moves `heap[2]` to the root, sets `used = 2`, and at `i = 1`
reads the priority of `heap[3]`, which was never written.  Whether the call then returns the
state with `front() == 300` and `size() == 2` depends on that value, which the source never
sets (a value above 1 makes `swap_with_parent(3)` fail its assertion); the model stops at the
read. -/
theorem three_item_scenario_stops_at_first_pop :
    ∃ q, pushAll [(100, 1), (200, 10), (300, 5)] (p_queue.ctor DEFAULT_CAPACITY) = .ok q ∧
      q.size = 3 ∧ q.capacity = 4 ∧ q.front = .ok 200 ∧ q.pop = .error .indeterminate :=
  ⟨{ heap := [some ⟨200, 10⟩, some ⟨100, 1⟩, some ⟨300, 5⟩, none], capacity := 4, used := 3 },
    by decide, by decide, by decide, by decide, by decide⟩

/-- C14: the sweep of `pop` leaves the live range.  After `p_queue q(7)` and seven pushes the
queue is a well-formed max-heap with `used = capacity = 7`.  During `pop` (`used` is then 6)
index 3 has no child in range (`2 * 3 + 1 = 7`), yet `is_leaf(3)` returns `false` and
`big_child_priority(3)` reads `heap[7]`, an index that is neither below `used` nor below
`capacity`. -/
theorem pop_sweep_reads_outside_live_range :
    ∃ q, pushAll [(1, 50), (2, 40), (3, 30), (4, 20), (5, 10), (6, 5), (7, 1)]
        (p_queue.ctor 7) = .ok q ∧ q.wf ∧ q.max_heap ∧ 2 ≤ q.used ∧ q.used ≤ q.capacity ∧
      ¬ (2 * 3 + 1 < q.used - 1) ∧
      p_queue.is_leaf { q with used := q.used - 1 } 3 = .ok false ∧
      p_queue.big_child_priority { q with used := q.used - 1 } 3 = .error .outOfBounds ∧
      q.pop = .error .outOfBounds :=
  ⟨{ heap := [some ⟨1, 50⟩, some ⟨2, 40⟩, some ⟨3, 30⟩, some ⟨4, 20⟩, some ⟨5, 10⟩,
      some ⟨6, 5⟩, some ⟨7, 1⟩], capacity := 7, used := 7 },
    by decide, by decide, by decide, by decide, by decide, by decide, by decide, by decide,
    by decide⟩

/-- C15: `is_leaf` does not match its specification.  For every queue and every `i < used`,
`is_leaf(i)` returns `true` exactly when `2 * i + 1 = used`.  On a two-item queue (also the
state inside `pop` of a three-item queue) node 1 has no child, `2 * 1 + 1 >= used`, and
`is_leaf(1)` returns `false`. -/
theorem is_leaf_true_only_when_left_child_index_is_used :
    (∀ (q : p_queue) (i : Nat), i < q.used →
        (q.is_leaf i = .ok true ↔ 2 * i + 1 = q.used)) ∧
      ∃ q, pushAll [(1, 1), (2, 10)] (p_queue.ctor DEFAULT_CAPACITY) = .ok q ∧ q.wf ∧
        1 < q.used ∧ 2 * 1 + 1 ≥ q.used ∧ q.is_leaf 1 = .ok false := by
  constructor
  · intro q i hi
    unfold p_queue.is_leaf
    rw [if_pos hi]
    by_cases h : 2 * i + 1 = q.used
    · have hc : 2 * i + 1 = q.used ∧ 2 * i + 2 > q.used := ⟨h, by omega⟩
      rw [if_pos hc]
      exact ⟨fun _ => h, fun _ => rfl⟩
    · have hc : ¬ (2 * i + 1 = q.used ∧ 2 * i + 2 > q.used) := fun hh => h hh.1
      rw [if_neg hc]
      constructor
      · intro hh
        cases hh
      · intro hh
        exact absurd hh h
  · exact ⟨{ heap := [some ⟨2, 10⟩, some ⟨1, 1⟩], capacity := 2, used := 2 },
      by decide, by decide, by decide, by decide, by decide⟩

/-! ## Counted loops and `pop` -/

theorem forLoop_invariant {σ : Type} (body : Nat → σ → Except Fault σ) (Inv : σ → Prop)
    (hstep : ∀ i s s1, Inv s → body i s = .ok s1 → Inv s1) :
    ∀ (n i : Nat) (s s1 : σ), Inv s → forLoop body n i s = .ok s1 → Inv s1 := by
  intro n
  induction n with
  | zero =>
    intro i s s1 hs h
    simp only [forLoop] at h
    cases h
    exact hs
  | succ n ih =>
    intro i s s1 hs h
    simp only [forLoop] at h
    cases hb : body i s with
    | error e => rw [hb] at h; cases h
    | ok s2 =>
      rw [hb] at h
      exact ih (i + 1) s2 s1 (hstep i s s2 hs hb) h

theorem swap_with_parent_wf (q q1 : p_queue) (i : Nat) (hwf : q.wf)
    (h : q.swap_with_parent i = .ok q1) :
    q1.wf ∧ q1.used = q.used ∧ q1.capacity = q.capacity := by
  obtain ⟨hlen, hle, hlive⟩ := hwf
  by_cases hc : i > 0 ∧ i < q.used
  · obtain ⟨h2, hrun, hl2, hget⟩ := swap_with_parent_ok q i hc.1 hc.2 (by omega)
    rw [hrun] at h
    cases h
    refine ⟨⟨?_, hle, ?_⟩, rfl, rfl⟩
    · show h2.length = q.capacity
      omega
    · intro k hk
      show (h2.getD k none).isSome = true
      rw [hget k]
      split_ifs
      · exact hlive i hc.2
      · exact hlive _ (by omega)
      · exact hlive k hk
  · unfold p_queue.swap_with_parent at h
    rw [if_neg hc] at h
    cases h

theorem pop_body_wf (q q1 : p_queue) (i : Nat) (hwf : q.wf)
    (h : p_queue.pop_body i q = .ok q1) :
    q1.wf ∧ q1.used = q.used ∧ q1.capacity = q.capacity := by
  unfold p_queue.pop_body at h
  split at h
  · cases h
  · cases h
    exact ⟨hwf, rfl, rfl⟩
  · split at h
    · cases h
    · split at h
      · cases h
      · split at h
        · split at h
          · cases h
          · exact swap_with_parent_wf q q1 _ hwf h
        · cases h
          exact ⟨hwf, rfl, rfl⟩

theorem writeItem_of_ok {a h : Storage} {i : Nat} {v : Option ItemType}
    (hw : writeItem a i v = .ok h) : i < a.length ∧ h = a.set i v := by
  unfold writeItem at hw
  by_cases hi : i < a.length
  · rw [if_pos hi] at hw
    cases hw
    exact ⟨hi, rfl⟩
  · rw [if_neg hi] at hw
    cases hw

theorem readItem_of_ok {a : Storage} {i : Nat} {v : Option ItemType}
    (hr : readItem a i = .ok v) : i < a.length ∧ v = a.getD i none := by
  by_cases hi : i < a.length
  · rw [readItem_eq_ok hi] at hr
    cases hr
    exact ⟨hi, rfl⟩
  · unfold readItem at hr
    rw [List.getElem?_eq_none (Nat.le_of_not_lt hi)] at hr
    cases hr

/-- The two ways `pop` returns: from a one-item queue by the decrement alone, from a longer
queue by the sweep over the array whose root holds the former last item. -/
theorem pop_cases (q q1 : p_queue) (h : q.pop = .ok q1) :
    0 < q.used ∧
      ((q.used = 1 ∧ q1 = { q with used := q.used - 1 }) ∨
        (1 < q.used ∧ 0 < q.heap.length ∧
          forLoop p_queue.pop_body (q.used - 1) 0
            { heap := q.heap.set 0 (q.heap.getD (q.used - 1) none), capacity := q.capacity,
              used := q.used - 1 } = .ok q1)) := by
  unfold p_queue.pop p_queue.empty at h
  by_cases h0 : q.used = 0
  · simp [h0] at h
  · have hpos : 0 < q.used := Nat.pos_of_ne_zero h0
    refine ⟨hpos, ?_⟩
    by_cases h1 : q.used > 1
    · right
      have hne : ¬ (q.used - 1 = 0) := by omega
      simp only [if_neg h0, if_pos h1, hne] at h
      cases hr : readItem q.heap (q.used - 1) with
      | error e => simp [hr] at h
      | ok last =>
        cases hw : writeItem q.heap 0 last with
        | error e => simp [hr, hw] at h
        | ok hp =>
          simp [hr, hw] at h
          obtain ⟨hl0, hset⟩ := writeItem_of_ok hw
          obtain ⟨_, hlast⟩ := readItem_of_ok hr
          refine ⟨h1, hl0, ?_⟩
          rw [← hlast, ← hset]
          exact h
    · left
      simp [h0, h1] at h
      exact ⟨by omega, h.symm⟩

theorem pop_ok_fields (q q1 : p_queue) (h : q.pop = .ok q1) :
    0 < q.used ∧ q1.used + 1 = q.used ∧ q1.capacity = q.capacity := by
  obtain ⟨hpos, hc⟩ := pop_cases q q1 h
  refine ⟨hpos, ?_⟩
  rcases hc with ⟨_, rfl⟩ | ⟨_, _, hloop⟩
  · exact ⟨by show q.used - 1 + 1 = q.used; omega, rfl⟩
  · have hinv := forLoop_invariant p_queue.pop_body
      (fun s => s.used = q.used - 1 ∧ s.capacity = q.capacity)
      (fun i s s1 hs hb => by
        have := pop_body_used s s1 i hb
        exact ⟨by rw [this.1]; exact hs.1, by rw [this.2]; exact hs.2⟩)
      _ _ _ _ (by exact ⟨rfl, rfl⟩) hloop
    exact ⟨by omega, hinv.2⟩

theorem pop_wf (q q1 : p_queue) (hwf : q.wf) (h : q.pop = .ok q1) : q1.wf := by
  obtain ⟨hlen, hle, hlive⟩ := hwf
  obtain ⟨hpos, hc⟩ := pop_cases q q1 h
  rcases hc with ⟨_, rfl⟩ | ⟨h1, hl0, hloop⟩
  · refine ⟨hlen, ?_, ?_⟩
    · show q.used - 1 ≤ q.capacity
      omega
    · intro k hk
      exact hlive k (by have : k < q.used - 1 := hk; omega)
  · refine forLoop_invariant p_queue.pop_body p_queue.wf
      (fun i s s1 hs hb => (pop_body_wf s s1 i hs hb).1) _ _ _ _ ?_ hloop
    refine ⟨?_, ?_, ?_⟩
    · show (q.heap.set 0 _).length = q.capacity
      rw [List.length_set]; exact hlen
    · show q.used - 1 ≤ q.capacity
      omega
    · intro k hk
      show ((q.heap.set 0 _).getD k none).isSome = true
      rw [getD_set_storage _ _ _ _ hl0]
      split_ifs
      · exact hlive _ (by omega)
      · exact hlive k (by have : k < q.used - 1 := hk; omega)

/-! ## The larger child -/

theorem is_leaf_of_left_child (q : p_queue) (i : Nat) (hleft : 2 * i + 1 < q.used) :
    q.is_leaf i = .ok false := by
  unfold p_queue.is_leaf
  have hi : i < q.used := by omega
  have hc : ¬ (2 * i + 1 = q.used ∧ 2 * i + 2 > q.used) := by omega
  rw [if_pos hi, if_neg hc]

/-- C19: `big_child_index` and `big_child_priority`.  For every queue that satisfies the
representation invariant and every index `i` whose left child is in range (`2 * i + 1 < used`),
`big_child_index(i)` returns: with a right child in range, `2 * i + 1` when the left priority
is strictly greater and `2 * i + 2` otherwise (the right child on a tie); without one,
`2 * i + 1`.  The returned index is below `used`, its priority is at least that of either
in-range child, and `big_child_priority(i)` returns the priority stored at that index. -/
theorem big_child_index_is_larger_child (q : p_queue) (i : Nat) (hwf : q.wf)
    (hleft : 2 * i + 1 < q.used) :
    ∃ c, q.big_child_index i = .ok c ∧
      c = (if 2 * i + 2 < q.used then
            (if priorityAt q.heap (2 * i + 1) > priorityAt q.heap (2 * i + 2) then 2 * i + 1
              else 2 * i + 2)
          else 2 * i + 1) ∧
      c < q.used ∧ priorityAt q.heap (2 * i + 1) ≤ priorityAt q.heap c ∧
      (2 * i + 2 < q.used → priorityAt q.heap (2 * i + 2) ≤ priorityAt q.heap c) ∧
      q.big_child_priority i = .ok (priorityAt q.heap c) := by
  obtain ⟨_, _, hlive⟩ := hwf
  have hleaf := is_leaf_of_left_child q i hleft
  have hl := readPriority_eq_ok (hlive _ hleft)
  by_cases hr : 2 * i + 2 < q.used
  · have hrp := readPriority_eq_ok (hlive _ hr)
    by_cases hgt : priorityAt q.heap (2 * i + 1) > priorityAt q.heap (2 * i + 2)
    · refine ⟨2 * i + 1, ?_, ?_, hleft, Nat.le_refl _, fun _ => by omega, ?_⟩
      · unfold p_queue.big_child_index
        simp only [hleaf, if_pos hr, hl, hrp, if_pos hgt]
      · rw [if_pos hr, if_pos hgt]
      · unfold p_queue.big_child_priority
        simp only [hleaf, if_pos hr, hl, hrp, if_pos hgt]
    · refine ⟨2 * i + 2, ?_, ?_, hr, by omega, fun _ => Nat.le_refl _, ?_⟩
      · unfold p_queue.big_child_index
        simp only [hleaf, if_pos hr, hl, hrp, if_neg hgt]
      · rw [if_pos hr, if_neg hgt]
      · unfold p_queue.big_child_priority
        simp only [hleaf, if_pos hr, hl, hrp, if_neg hgt]
  · refine ⟨2 * i + 1, ?_, ?_, hleft, Nat.le_refl _, fun h => absurd h hr, ?_⟩
    · unfold p_queue.big_child_index
      simp only [hleaf, if_neg hr]
    · rw [if_neg hr]
    · unfold p_queue.big_child_priority
      simp only [hleaf, if_neg hr, hl]

theorem big_child_index_is_larger_child_witness :
    sampleThree.wf ∧ 2 * 0 + 1 < sampleThree.used ∧
      ∃ c, sampleThree.big_child_index 0 = .ok c ∧
        c = (if 2 * 0 + 2 < sampleThree.used then
              (if priorityAt sampleThree.heap (2 * 0 + 1) > priorityAt sampleThree.heap (2 * 0 + 2)
                then 2 * 0 + 1 else 2 * 0 + 2)
            else 2 * 0 + 1) ∧
        c < sampleThree.used ∧
        priorityAt sampleThree.heap (2 * 0 + 1) ≤ priorityAt sampleThree.heap c ∧
        (2 * 0 + 2 < sampleThree.used →
          priorityAt sampleThree.heap (2 * 0 + 2) ≤ priorityAt sampleThree.heap c) ∧
        sampleThree.big_child_priority 0 = .ok (priorityAt sampleThree.heap c) :=
  ⟨by decide, by decide, big_child_index_is_larger_child sampleThree 0 (by decide) (by decide)⟩

/-- C16: `push` always succeeds.  For every queue that satisfies the representation invariant
and every value and priority, `push` returns a queue: no array access is out of bounds (the
new item goes to slot `used`, below the possibly grown capacity), no assertion of
`parent_index`, `parent_priority` or `swap_with_parent` fails, and the fuel of the sift-up loop
is not exhausted.  On the result every index `i` with `0 < i < used` meets the precondition of
`parent_index` and `parent_priority`, and `parent_index(i)` is strictly below `i`, which is
why the loop reaches the root. -/
theorem push_always_succeeds (q : p_queue) (entry : value_type) (priority : Nat)
    (hwf : q.wf) :
    ∃ q1, q.push entry priority = .ok q1 ∧ q1.used = q.used + 1 ∧ q.used < q1.capacity ∧
      q1.heap.length = q1.capacity ∧
      ∀ i, 0 < i → i < q1.used →
        q1.parent_index i = .ok ((i - 1) / 2) ∧ (i - 1) / 2 < i ∧
        q1.parent_priority i = .ok (priorityAt q1.heap ((i - 1) / 2)) := by
  obtain ⟨q1, hrun, hu, _, hwf1, _, _⟩ := push_ok q entry priority hwf
  obtain ⟨hl1, hle1, hlive1⟩ := hwf1
  refine ⟨q1, hrun, hu, by omega, hl1, ?_⟩
  intro i h0 hi
  have hc : i > 0 ∧ i < q1.used := ⟨h0, hi⟩
  refine ⟨?_, by omega, ?_⟩
  · unfold p_queue.parent_index
    rw [if_pos hc]
  · unfold p_queue.parent_priority
    rw [if_pos hc]
    exact readPriority_eq_ok (hlive1 _ (by omega))

theorem push_always_succeeds_witness :
    sampleFull.wf ∧
      ∃ q1, sampleFull.push 33 12 = .ok q1 ∧ q1.used = sampleFull.used + 1 ∧
        sampleFull.used < q1.capacity ∧ q1.heap.length = q1.capacity ∧
        ∀ i, 0 < i → i < q1.used →
          q1.parent_index i = .ok ((i - 1) / 2) ∧ (i - 1) / 2 < i ∧
          q1.parent_priority i = .ok (priorityAt q1.heap ((i - 1) / 2)) :=
  ⟨by decide, push_always_succeeds sampleFull 33 12 (by decide)⟩

/-- C17: the growth policy.  For every queue that satisfies the representation invariant:
`push` returns a queue whose capacity is `3 * capacity / 2 + 1`, strictly more than before,
when `used = capacity`, and the old capacity when `used < capacity`; in the first case the
`resize` that `push` performs returns an array of the new capacity whose slots `[0, used)` are
those of the old array.  Whenever `pop` returns, the capacity is the one before the call. -/
theorem growth_policy (q : p_queue) (entry : value_type) (priority : Nat) (hwf : q.wf) :
    (∃ q1, q.push entry priority = .ok q1 ∧
        (q.used = q.capacity →
          q1.capacity = 3 * q.capacity / 2 + 1 ∧ q.capacity < q1.capacity) ∧
        (q.used < q.capacity → q1.capacity = q.capacity)) ∧
      (q.used = q.capacity →
        ∃ r, q.resize (3 * q.capacity / 2 + 1) = .ok r ∧
          r.capacity = 3 * q.capacity / 2 + 1 ∧ r.used = q.used ∧
          r.heap.length = r.capacity ∧ r.heap.take q.used = q.heap.take q.used) ∧
      ∀ q1, q.pop = .ok q1 → q1.capacity = q.capacity := by
  obtain ⟨q1, hrun, _, hcap, _, _, _⟩ := push_ok q entry priority hwf
  obtain ⟨hlen, hle, _⟩ := hwf
  refine ⟨⟨q1, hrun, ?_, ?_⟩, ?_, ?_⟩
  · intro hfull
    rw [if_pos hfull] at hcap
    exact ⟨hcap, by omega⟩
  · intro hlt
    rw [if_neg (by omega)] at hcap
    exact hcap
  · intro hfull
    obtain ⟨h, hres, hl, hget⟩ :=
      resize_ok q (3 * q.capacity / 2 + 1) (by omega) (by omega)
    refine ⟨_, hres, rfl, rfl, hl, ?_⟩
    apply take_congr_of_getD q.heap h q.used (by omega) (by omega)
    intro k hk
    rw [hget k, if_pos hk]
  · intro q1 hpop
    exact (pop_ok_fields q q1 hpop).2.2

theorem growth_policy_witness :
    sampleFull.wf ∧
      (∃ q1, sampleFull.push 34 2 = .ok q1 ∧
        (sampleFull.used = sampleFull.capacity →
          q1.capacity = 3 * sampleFull.capacity / 2 + 1 ∧ sampleFull.capacity < q1.capacity) ∧
        (sampleFull.used < sampleFull.capacity → q1.capacity = sampleFull.capacity)) ∧
      (sampleFull.used = sampleFull.capacity →
        ∃ r, sampleFull.resize (3 * sampleFull.capacity / 2 + 1) = .ok r ∧
          r.capacity = 3 * sampleFull.capacity / 2 + 1 ∧ r.used = sampleFull.used ∧
          r.heap.length = r.capacity ∧
          r.heap.take sampleFull.used = sampleFull.heap.take sampleFull.used) ∧
      ∀ q1, sampleFull.pop = .ok q1 → q1.capacity = sampleFull.capacity :=
  ⟨by decide, growth_policy sampleFull 34 2 (by decide)⟩

/-! ## The state `push` hands to its loop -/

theorem push_placed (q : p_queue) (entry : value_type) (priority : Nat) (hwf : q.wf) :
    ∃ q2 : p_queue,
      q.push entry priority = p_queue.push_loop (q2.used + 1) q2 (q2.used - 1) ∧
      q.push_early_exit entry priority = sift_up_early_exit (q2.used + 1) q2 (q2.used - 1) ∧
      q2.used = q.used + 1 ∧ q2.used ≤ q2.heap.length ∧
      (∀ k, k < q2.used → (q2.heap.getD k none).isSome = true) ∧
      (∀ k, k < q.used → q2.heap.getD k none = q.heap.getD k none) ∧
      q2.heap.getD q.used none = some { data := entry, priority := priority } ∧
      (q.max_heap → HeapExcept (priorityAt q2.heap) q2.used (q2.used - 1)) := by
  obtain ⟨g, hgrow, hgu, _, hgl, hglt, hgget⟩ := push_grow_ok q hwf
  obtain ⟨hlen, hle, hlive⟩ := hwf
  have hul : g.used < g.heap.length := by omega
  have hh2 : ∀ k, (g.heap.set g.used (some { data := entry, priority := priority })).getD k none
      = if k = g.used then some { data := entry, priority := priority }
        else g.heap.getD k none :=
    fun k => getD_set_storage _ _ _ _ hul
  refine ⟨{ heap := g.heap.set g.used (some { data := entry, priority := priority }),
            capacity := g.capacity, used := g.used + 1 }, ?_, ?_, ?_, ?_, ?_, ?_, ?_, ?_⟩
  · unfold p_queue.push
    rw [hgrow]
    simp only [writeItem_eq_ok _ hul]
  · unfold p_queue.push_early_exit
    rw [hgrow]
    simp only [writeItem_eq_ok _ hul]
  · show g.used + 1 = q.used + 1
    rw [hgu]
  · show g.used + 1 ≤ (g.heap.set g.used _).length
    rw [List.length_set]
    omega
  · intro k hk
    have hk1 : k < g.used + 1 := hk
    show ((g.heap.set g.used _).getD k none).isSome = true
    rw [hh2 k]
    by_cases hkn : k = g.used
    · rw [if_pos hkn]; rfl
    · rw [if_neg hkn, hgget k (by omega)]
      exact hlive k (by omega)
  · intro k hk
    show (g.heap.set g.used _).getD k none = _
    rw [hh2 k, if_neg (by omega)]
    exact hgget k hk
  · show (g.heap.set g.used _).getD q.used none = _
    rw [hh2, if_pos hgu.symm]
  · intro hheap
    show HeapExcept (priorityAt (g.heap.set g.used _)) (g.used + 1) (g.used + 1 - 1)
    rw [Nat.add_sub_cancel]
    apply heapExcept_of_heap (P := priorityAt q.heap)
    · intro j hj h1j
      rw [hgu] at hj
      exact hheap j hj h1j
    · intro k hk
      apply priorityAt_of_getD_eq
      rw [hh2 k, if_neg (by omega)]
      exact hgget k (by omega)

/-- One swap of the sift-up, with its effect on the slots and on the priorities. -/
theorem swap_with_parent_step (q : p_queue) (i : Nat) (h0 : 0 < i) (hi : i < q.used)
    (hlen : q.used ≤ q.heap.length)
    (hlive : ∀ k, k < q.used → (q.heap.getD k none).isSome = true) :
    ∃ h1, q.swap_with_parent i = .ok { q with heap := h1 } ∧ h1.length = q.heap.length ∧
      (∀ k, k < q.used → (h1.getD k none).isSome = true) ∧
      (∀ k, h1.getD k none =
        if k = (i - 1) / 2 then q.heap.getD i none
        else if k = i then q.heap.getD ((i - 1) / 2) none else q.heap.getD k none) ∧
      (∀ k, priorityAt h1 k =
        if k = (i - 1) / 2 then priorityAt q.heap i
        else if k = i then priorityAt q.heap ((i - 1) / 2) else priorityAt q.heap k) := by
  obtain ⟨h1, hswap, hl1, hget1⟩ := swap_with_parent_ok q i h0 hi hlen
  refine ⟨h1, hswap, hl1, ?_, hget1, ?_⟩
  · intro k hk
    rw [hget1 k]
    split_ifs
    · exact hlive i hi
    · exact hlive _ (by omega)
    · exact hlive k hk
  · intro k
    have hk := hget1 k
    split_ifs with c1 c2
    · rw [if_pos c1] at hk; exact priorityAt_of_getD_eq hk
    · rw [if_neg c1, if_pos c2] at hk; exact priorityAt_of_getD_eq hk
    · rw [if_neg c1, if_neg c2] at hk; exact priorityAt_of_getD_eq hk

/-! ## Late and early termination of the sift-up -/

/-- On a max-heap the loop of `push` changes nothing, from whatever index it is entered. -/
theorem push_loop_of_heap : ∀ (fuel : Nat) (q : p_queue) (i : Nat),
    i < fuel → i < q.used →
    (∀ k, k < q.used → (q.heap.getD k none).isSome = true) →
    (∀ j, j < q.used → 1 ≤ j → priorityAt q.heap j ≤ priorityAt q.heap ((j - 1) / 2)) →
    p_queue.push_loop fuel q i = .ok q := by
  intro fuel
  induction fuel with
  | zero => intro q i hf; omega
  | succ fuel ih =>
    intro q i hf hi hlive hheap
    by_cases h0 : i = 0
    · subst h0
      simp [p_queue.push_loop]
    · have hpos : 0 < i := Nat.pos_of_ne_zero h0
      have hcond : i > 0 ∧ i < q.used := ⟨hpos, hi⟩
      have hle := hheap i hi hpos
      have hngt : ¬ priorityAt q.heap i > priorityAt q.heap ((i - 1) / 2) := by omega
      simp only [p_queue.push_loop, if_pos hpos, push_body_ok q i hpos hi hlive,
        if_neg hngt, p_queue.parent_index, if_pos hcond]
      exact ih q ((i - 1) / 2) (by omega) (by omega) hlive hheap

theorem push_loop_eq_early_exit : ∀ (fuel : Nat) (q : p_queue) (i : Nat),
    i < fuel → i < q.used → q.used ≤ q.heap.length →
    (∀ k, k < q.used → (q.heap.getD k none).isSome = true) →
    HeapExcept (priorityAt q.heap) q.used i →
    p_queue.push_loop fuel q i = sift_up_early_exit fuel q i := by
  intro fuel
  induction fuel with
  | zero => intro q i hf; omega
  | succ fuel ih =>
    intro q i hf hi hlen hlive hinv
    by_cases h0 : i = 0
    · subst h0
      simp [p_queue.push_loop, sift_up_early_exit]
    · have hpos : 0 < i := Nat.pos_of_ne_zero h0
      have hcond : i > 0 ∧ i < q.used := ⟨hpos, hi⟩
      have hrp := readPriority_eq_ok (hlive i hi)
      have hpp : q.parent_priority i = .ok (priorityAt q.heap ((i - 1) / 2)) := by
        unfold p_queue.parent_priority
        rw [if_pos hcond]
        exact readPriority_eq_ok (hlive _ (by omega))
      by_cases hgt : priorityAt q.heap i > priorityAt q.heap ((i - 1) / 2)
      · obtain ⟨h1, hswap, hl1, hlive1, _, hQ⟩ :=
          swap_with_parent_step q i hpos hi hlen hlive
        have hrec := ih { q with heap := h1 } ((i - 1) / 2) (by omega)
          (by show (i - 1) / 2 < q.used; omega) (by show q.used ≤ h1.length; omega) hlive1
          (heapExcept_swap hinv hpos hgt hQ)
        simp only [p_queue.push_loop, sift_up_early_exit, if_pos hpos,
          push_body_ok q i hpos hi hlive, if_pos hgt, hswap, p_queue.parent_index,
          if_pos hcond, hrp, hpp]
        exact hrec
      · have hkeep := heapExcept_keep hinv hpos hi (by omega)
        have hheap : ∀ j, j < q.used → 1 ≤ j →
            priorityAt q.heap j ≤ priorityAt q.heap ((j - 1) / 2) := by
          intro j hj h1j
          by_cases hji : j = i
          · subst hji; omega
          · exact hinv.1 j hj h1j hji
        simp only [p_queue.push_loop, sift_up_early_exit, if_pos hpos,
          push_body_ok q i hpos hi hlive, if_neg hgt, p_queue.parent_index,
          if_pos hcond, hrp, hpp]
        exact push_loop_of_heap fuel q ((i - 1) / 2) (by omega) (by omega) hlive hheap

/-- C18: the late-terminating sift-up of `push` equals the early-exit sift-up.  For every
queue that satisfies the representation invariant and the max-heap property and every value
and priority, `push` (whose loop walks on to the root after a level that needed no swap) and
the insertion with the early-exit sift-up return the same queue, hence the same storage slot
for slot on `[0, used + 1)`. -/
theorem push_equals_early_exit_push (q : p_queue) (entry : value_type) (priority : Nat)
    (hwf : q.wf) (hheap : q.max_heap) :
    ∃ q1, q.push entry priority = .ok q1 ∧ q.push_early_exit entry priority = .ok q1 ∧
      q1.used = q.used + 1 := by
  obtain ⟨q1, hrun, hu, _⟩ := push_ok q entry priority hwf
  obtain ⟨q2, hp, he, hu2, hlen2, hlive2, _, _, hinv⟩ := push_placed q entry priority hwf
  refine ⟨q1, hrun, ?_, hu⟩
  rw [he, ← push_loop_eq_early_exit (q2.used + 1) q2 (q2.used - 1) (by omega) (by omega)
    hlen2 hlive2 (hinv hheap), ← hp]
  exact hrun

theorem push_equals_early_exit_push_witness :
    sampleThree.wf ∧ sampleThree.max_heap ∧
      ∃ q1, sampleThree.push 43 5 = .ok q1 ∧ sampleThree.push_early_exit 43 5 = .ok q1 ∧
        q1.used = sampleThree.used + 1 :=
  ⟨by decide, by decide, push_equals_early_exit_push sampleThree 43 5 (by decide) (by decide)⟩

/-! ## The effect of `push` on the root -/

/-- When the root dominates every live slot, the loop of `push` never swaps into slot 0. -/
theorem push_loop_keeps_root : ∀ (fuel : Nat) (q : p_queue) (i : Nat),
    i < fuel → i < q.used → q.used ≤ q.heap.length →
    (∀ k, k < q.used → (q.heap.getD k none).isSome = true) →
    (∀ j, j < q.used → priorityAt q.heap j ≤ priorityAt q.heap 0) →
    ∃ h, p_queue.push_loop fuel q i = .ok { q with heap := h } ∧
      h.getD 0 none = q.heap.getD 0 none := by
  intro fuel
  induction fuel with
  | zero => intro q i hf; omega
  | succ fuel ih =>
    intro q i hf hi hlen hlive hdom
    by_cases h0 : i = 0
    · subst h0
      exact ⟨q.heap, by simp [p_queue.push_loop], rfl⟩
    · have hpos : 0 < i := Nat.pos_of_ne_zero h0
      have hcond : i > 0 ∧ i < q.used := ⟨hpos, hi⟩
      by_cases hgt : priorityAt q.heap i > priorityAt q.heap ((i - 1) / 2)
      · have hp0 : (i - 1) / 2 ≠ 0 := by
          intro hz
          rw [hz] at hgt
          have := hdom i hi
          omega
        obtain ⟨h1, hswap, hl1, hlive1, hget1, hQ⟩ :=
          swap_with_parent_step q i hpos hi hlen hlive
        have hroot1 : h1.getD 0 none = q.heap.getD 0 none := by
          rw [hget1 0, if_neg (Ne.symm hp0), if_neg (by omega)]
        have hQ0 : priorityAt h1 0 = priorityAt q.heap 0 := priorityAt_of_getD_eq hroot1
        have hdom1 : ∀ j, j < q.used → priorityAt h1 j ≤ priorityAt h1 0 := by
          intro j hj
          rw [hQ0, hQ j]
          split_ifs
          · exact hdom i hi
          · exact hdom _ (by omega)
          · exact hdom j hj
        obtain ⟨h, hrun, hroot⟩ :=
          ih { q with heap := h1 } ((i - 1) / 2) (by omega) (by show (i - 1) / 2 < q.used; omega)
            (by show q.used ≤ h1.length; omega) hlive1 hdom1
        refine ⟨h, ?_, by rw [hroot]; exact hroot1⟩
        simp only [p_queue.push_loop, if_pos hpos, push_body_ok q i hpos hi hlive,
          if_pos hgt, hswap, p_queue.parent_index, if_pos hcond]
        exact hrun
      · obtain ⟨h, hrun, hroot⟩ := ih q ((i - 1) / 2) (by omega) (by omega) hlen hlive hdom
        refine ⟨h, ?_, hroot⟩
        simp only [p_queue.push_loop, if_pos hpos, push_body_ok q i hpos hi hlive,
          if_neg hgt, p_queue.parent_index, if_pos hcond]
        exact hrun

theorem mem_liveItems_iff (q : p_queue) (hlen : q.used ≤ q.heap.length) (it : ItemType) :
    it ∈ q.liveItems ↔ ∃ k, k < q.used ∧ q.heap.getD k none = some it := by
  unfold p_queue.liveItems
  rw [List.reduceOption_mem_iff, take_eq_map_range q.heap q.used hlen]
  simp only [List.mem_map, List.mem_range]

theorem priorityAt_of_getD_some {a : Storage} {k : Nat} {it : ItemType}
    (h : a.getD k none = some it) : priorityAt a k = it.priority := by
  rw [priorityAt_eq_getD, h]

theorem front_of_root (q : p_queue) (it : ItemType) (hpos : 0 < q.used)
    (hlen : q.used ≤ q.heap.length) (h : q.heap.getD 0 none = some it) :
    q.front = .ok it.data ∧ q.heap[0]? = some (some it) := by
  have hl : 0 < q.heap.length := by omega
  have hs : q.heap[0]? = some (some it) := by
    rw [List.getD_eq_getElem?_getD, List.getElem?_eq_getElem hl] at h
    rw [List.getElem?_eq_getElem hl]
    simpa using h
  refine ⟨?_, hs⟩
  unfold p_queue.front p_queue.empty readData
  have : ¬ q.used = 0 := by omega
  simp only [if_neg this, hs]
  rfl

/-- C20: the effect of `push` on `front()`.  For every non-empty queue that satisfies the
representation invariant and the max-heap property: `push` returns a queue; when the pushed
priority is strictly greater than the priority at index 0, index 0 of the result holds the
pushed item and `front()` returns the pushed value; when it is less than or equal, index 0
holds the item it held before and `front()` returns what it returned before, so an equal
priority does not displace the earlier maximum. -/
theorem push_effect_on_front (q : p_queue) (entry : value_type) (priority : Nat)
    (hwf : q.wf) (hheap : q.max_heap) (hne : 0 < q.used) :
    ∃ q1, q.push entry priority = .ok q1 ∧
      (priorityAt q.heap 0 < priority →
        q1.heap[0]? = some (some { data := entry, priority := priority }) ∧
        q1.front = .ok entry) ∧
      (priority ≤ priorityAt q.heap 0 →
        q1.heap[0]? = q.heap[0]? ∧ q1.front = q.front) := by
  obtain ⟨q1, hrun, hu, _, hwf1, hh1, hperm⟩ := push_ok q entry priority hwf
  have hheap1 := hh1 hheap
  obtain ⟨hl1, hle1, hlive1⟩ := hwf1
  have hlen := hwf.1
  have hle := hwf.2.1
  refine ⟨q1, hrun, ?_, ?_⟩
  · intro hgt
    have hr := hlive1 0 (by omega)
    cases hroot : q1.heap.getD 0 none with
    | none => rw [hroot] at hr; simp at hr
    | some r =>
      have hrmem : r ∈ q1.liveItems :=
        (mem_liveItems_iff q1 (by omega) r).2 ⟨0, by omega, hroot⟩
      have hxmem : ({ data := entry, priority := priority } : ItemType) ∈ q1.liveItems :=
        hperm.mem_iff.2 (by simp)
      obtain ⟨k, hk, hkx⟩ := (mem_liveItems_iff q1 (by omega) _).1 hxmem
      have hdom := root_dominates q1 hheap1 k hk
      rw [priorityAt_of_getD_some hkx, priorityAt_of_getD_some hroot] at hdom
      have hrx : r = { data := entry, priority := priority } := by
        have hm := hperm.mem_iff.1 hrmem
        rw [List.mem_append, List.mem_singleton] at hm
        rcases hm with hold | hnew
        · obtain ⟨j, hj, hjr⟩ := (mem_liveItems_iff q (by omega) r).1 hold
          have h1 := root_dominates q hheap j hj
          rw [priorityAt_of_getD_some hjr] at h1
          have h2 : priority ≤ r.priority := hdom
          omega
        · exact hnew
      rw [hrx] at hroot
      have := front_of_root q1 _ (by omega) (by omega) hroot
      exact ⟨this.2, this.1⟩
  · intro hle0
    obtain ⟨q2, hp, _, hu2, hlen2, hlive2, hold2, hnew2, _⟩ :=
      push_placed q entry priority hwf
    have hroot2 : q2.heap.getD 0 none = q.heap.getD 0 none := hold2 0 hne
    have hdom2 : ∀ j, j < q2.used → priorityAt q2.heap j ≤ priorityAt q2.heap 0 := by
      intro j hj
      rw [priorityAt_of_getD_eq hroot2]
      by_cases hjn : j < q.used
      · rw [priorityAt_of_getD_eq (hold2 j hjn)]
        exact root_dominates q hheap j hjn
      · have hje : j = q.used := by omega
        rw [hje, priorityAt_of_getD_some hnew2]
        exact hle0
    obtain ⟨h, hloop, hroot⟩ :=
      push_loop_keeps_root (q2.used + 1) q2 (q2.used - 1) (by omega) (by omega) hlen2 hlive2
        hdom2
    rw [hp, hloop] at hrun
    cases hrun
    have hsame : h.getD 0 none = q.heap.getD 0 none := by rw [hroot, hroot2]
    have hl1a : h.length = q2.capacity := hl1
    have hle1a : q2.used ≤ q2.capacity := hle1
    have hslot : h[0]? = q.heap[0]? := slot_eq_of_getD (by omega) (by omega) hsame
    refine ⟨hslot, ?_⟩
    unfold p_queue.front p_queue.empty readData
    have e1 : ¬ q2.used = 0 := by omega
    have e2 : ¬ q.used = 0 := by omega
    simp only [if_neg e1, if_neg e2]
    show (match h[0]? with
      | some (some it) => Except.ok it.data
      | some none => Except.error Fault.indeterminate
      | none => Except.error Fault.outOfBounds) = _
    rw [hslot]
    rfl

theorem push_effect_on_front_witness :
    sampleThree.wf ∧ sampleThree.max_heap ∧ 0 < sampleThree.used ∧
      ∃ q1, sampleThree.push 44 7 = .ok q1 ∧
        (priorityAt sampleThree.heap 0 < 7 →
          q1.heap[0]? = some (some { data := 44, priority := 7 }) ∧ q1.front = .ok 44) ∧
        (7 ≤ priorityAt sampleThree.heap 0 →
          q1.heap[0]? = sampleThree.heap[0]? ∧ q1.front = sampleThree.front) :=
  ⟨by decide, by decide, by decide,
    push_effect_on_front sampleThree 44 7 (by decide) (by decide) (by decide)⟩

/-! ## The capacity invariant -/

theorem ctor_wf (n : Nat) : (p_queue.ctor n).wf ∧ 1 ≤ (p_queue.ctor n).capacity := by
  have hcap : 1 ≤ (p_queue.ctor n).capacity := by
    unfold p_queue.ctor DEFAULT_CAPACITY
    by_cases h : n < 1
    · simp only [if_pos h]; omega
    · simp only [if_neg h]; omega
  refine ⟨⟨length_newArray _, Nat.zero_le _, ?_⟩, hcap⟩
  intro i hi
  exact absurd hi (Nat.not_lt_zero i)

theorem copy_wf (src : p_queue) (hwf : src.wf) :
    ∃ h, copyItems src.heap src.used (newArray src.capacity) = .ok h ∧
      p_queue.wf { heap := h, capacity := src.capacity, used := src.used } := by
  obtain ⟨hlen, hle, hlive⟩ := hwf
  obtain ⟨h, hrun, hl, _, hget⟩ := copy_ok src hlen hle
  refine ⟨h, hrun, hl, hle, ?_⟩
  intro k hk
  show (h.getD k none).isSome = true
  rw [hget k hk]
  exact hlive k hk

theorem resize_wf (q : p_queue) (m : Nat) (hwf : q.wf) :
    ∃ r, q.resize m = .ok r ∧ r.wf ∧ r.used = q.used ∧ r.capacity = max m q.used := by
  obtain ⟨hlen, hle, hlive⟩ := hwf
  obtain ⟨h, hrun, hl, hget⟩ :=
    copyItems_newArray q.heap q.used (max m q.used) (by omega) (by omega)
  refine ⟨{ heap := h, capacity := max m q.used, used := q.used }, ?_, ⟨hl, ?_, ?_⟩, rfl, rfl⟩
  · unfold p_queue.resize
    have h2 : ¬ q.used < 0 := by omega
    have e : (if m < q.used then q.used else m) = max m q.used := by
      by_cases hm : m < q.used
      · rw [if_pos hm]; omega
      · rw [if_neg hm]; omega
    simp only [if_neg h2, e, hrun]
  · show q.used ≤ max m q.used
    omega
  · intro k hk
    show (h.getD k none).isSome = true
    rw [hget k, if_pos hk]
    exact hlive k hk

theorem reachable_wf (q : p_queue) (hr : Reachable q) : q.wf ∧ 1 ≤ q.capacity := by
  induction hr with
  | ctor n => exact ctor_wf n
  | push entry priority _ hpush ih =>
    obtain ⟨q1, hrun, _, hcap, hwf1, _, _⟩ := push_ok _ entry priority ih.1
    rw [hrun] at hpush
    cases hpush
    refine ⟨hwf1, ?_⟩
    rw [hcap]
    split_ifs <;> omega
  | pop _ hpop ih =>
    refine ⟨pop_wf _ _ ih.1 hpop, ?_⟩
    rw [(pop_ok_fields _ _ hpop).2.2]
    exact ih.2
  | copy _ hcopy ih =>
    obtain ⟨h, hrun, hwf1⟩ := copy_wf _ ih.1
    unfold p_queue.ctor_copy at hcopy
    rw [hrun] at hcopy
    cases hcopy
    exact ⟨hwf1, ih.2⟩
  | assign a b _ _ hassign ihs ihr =>
    unfold p_queue.operator_assign at hassign
    by_cases hab : a ≠ b
    · obtain ⟨h, hrun, hwf1⟩ := copy_wf _ ihr.1
      rw [if_pos hab, hrun] at hassign
      cases hassign
      exact ⟨hwf1, ihr.2⟩
    · rw [if_neg hab] at hassign
      cases hassign
      exact ihs

/-- C11: the capacity invariant.  `used <= capacity` and `capacity >= 1` hold for every
constructed queue and are preserved by every operation.  From a queue `q` that satisfies the
representation invariant and has `capacity >= 1`: `push` returns a queue that satisfies both;
`pop` takes `q` only to queues that satisfy both; the copy of `q` and the result of assigning
`q` to any such receiver satisfy both; `resize`, a private helper whose one caller `push`
requests `3 * capacity / 2 + 1`, returns for that request, and for every request of at least
1, a queue that satisfies both, and keeps `used <= capacity` for any request.  Hence both hold
in every state reachable from construction by `push`, `pop`, copy and assignment. -/
theorem capacity_invariant (q : p_queue) (hwf : q.wf) (hcap : 1 ≤ q.capacity) :
    (∀ n, (p_queue.ctor n).used ≤ (p_queue.ctor n).capacity ∧ 1 ≤ (p_queue.ctor n).capacity) ∧
      (∀ entry priority, ∃ q1, q.push entry priority = .ok q1 ∧ q1.wf ∧
        q1.used ≤ q1.capacity ∧ 1 ≤ q1.capacity) ∧
      (∀ q1, q.pop = .ok q1 → q1.wf ∧ q1.used ≤ q1.capacity ∧ 1 ≤ q1.capacity) ∧
      (∃ c, p_queue.ctor_copy q = .ok c ∧ c.wf ∧ c.used ≤ c.capacity ∧ 1 ≤ c.capacity) ∧
      (∀ (this_addr rhs_addr : Nat) (self : p_queue), self.wf → 1 ≤ self.capacity →
        ∃ c, p_queue.operator_assign this_addr rhs_addr self q = .ok c ∧ c.wf ∧
          c.used ≤ c.capacity ∧ 1 ≤ c.capacity) ∧
      (∃ r, q.resize (3 * q.capacity / 2 + 1) = .ok r ∧ r.wf ∧ r.used ≤ r.capacity ∧
        1 ≤ r.capacity) ∧
      (∀ m, ∃ r, q.resize m = .ok r ∧ r.wf ∧ r.used ≤ r.capacity ∧
        (1 ≤ m → 1 ≤ r.capacity)) ∧
      (∀ s, Reachable s → s.wf ∧ s.used ≤ s.capacity ∧ 1 ≤ s.capacity) := by
  refine ⟨?_, ?_, ?_, ?_, ?_, ?_, ?_, ?_⟩
  · intro n
    exact ⟨(ctor_wf n).1.2.1, (ctor_wf n).2⟩
  · intro entry priority
    obtain ⟨q1, hrun, _, hc, hwf1, _, _⟩ := push_ok q entry priority hwf
    refine ⟨q1, hrun, hwf1, hwf1.2.1, ?_⟩
    rw [hc]
    split_ifs <;> omega
  · intro q1 hpop
    have hwf1 := pop_wf q q1 hwf hpop
    refine ⟨hwf1, hwf1.2.1, ?_⟩
    rw [(pop_ok_fields q q1 hpop).2.2]
    exact hcap
  · obtain ⟨h, hrun, hwf1⟩ := copy_wf q hwf
    refine ⟨{ heap := h, capacity := q.capacity, used := q.used }, ?_, hwf1, hwf1.2.1, hcap⟩
    unfold p_queue.ctor_copy
    rw [hrun]
  · intro a b self hs hsc
    by_cases hab : a ≠ b
    · obtain ⟨h, hrun, hwf1⟩ := copy_wf q hwf
      refine ⟨{ heap := h, capacity := q.capacity, used := q.used }, ?_, hwf1, hwf1.2.1, hcap⟩
      unfold p_queue.operator_assign
      rw [if_pos hab, hrun]
    · refine ⟨self, ?_, hs, hs.2.1, hsc⟩
      unfold p_queue.operator_assign
      rw [if_neg hab]
  · obtain ⟨r, hrun, hwfr, _, hc⟩ := resize_wf q (3 * q.capacity / 2 + 1) hwf
    refine ⟨r, hrun, hwfr, hwfr.2.1, ?_⟩
    rw [hc]
    omega
  · intro m
    obtain ⟨r, hrun, hwfr, _, hc⟩ := resize_wf q m hwf
    refine ⟨r, hrun, hwfr, hwfr.2.1, ?_⟩
    intro hm
    rw [hc]
    omega
  · intro s hs
    have := reachable_wf s hs
    exact ⟨this.1, this.1.2.1, this.2⟩

theorem capacity_invariant_witness :
    sampleSpare.wf ∧ 1 ≤ sampleSpare.capacity ∧
      (∃ q1, sampleSpare.push 23 6 = .ok q1 ∧ q1.wf ∧ q1.used ≤ q1.capacity ∧
        1 ≤ q1.capacity) ∧
      (∃ q1, sampleSpare.pop = .ok q1 ∧ q1.wf ∧ q1.used ≤ q1.capacity ∧ 1 ≤ q1.capacity) ∧
      (∃ r, sampleSpare.resize (3 * sampleSpare.capacity / 2 + 1) = .ok r ∧ r.wf ∧
        r.used ≤ r.capacity ∧ 1 ≤ r.capacity) :=
  ⟨by decide, by decide,
    (capacity_invariant sampleSpare (by decide) (by decide)).2.1 23 6,
    ⟨{ heap := [some ⟨21, 4⟩, some ⟨21, 4⟩, none], capacity := 3, used := 1 }, by decide,
      (capacity_invariant sampleSpare (by decide) (by decide)).2.2.1
        { heap := [some ⟨21, 4⟩, some ⟨21, 4⟩, none], capacity := 3, used := 1 }
        (by decide)⟩,
    (capacity_invariant sampleSpare (by decide) (by decide)).2.2.2.2.2.1⟩

end CS3358_FA2019_A7
